import Mathlib

/-!
Shallow embedding of `src/MinMaxAlgorithm/MinMaxAlgorithm.py` (class `GameAlgo`).

The Python engine manipulates one shared mutable position through seven
callbacks.  Here a `GameAlgo` record holds those callbacks as pure functions
on an explicit position type, and every engine routine threads a
`SearchState` (current position, number of interrupt-flag polls so far, and
the trace of callback invocations) exactly along the source's control flow.
The interrupt flag read at the k-th poll is supplied by a function
`intr : Nat → Bool`, which models a collaborator setting the flag
asynchronously between polls.
-/

namespace MinMaxSpec

/-- Module constant `MINMAX_ALGO = 1`. -/
def MINMAX_ALGO : Int := 1

/-- Module constant `MINMAXALPHABETAPRUNING_ALGO = 2`. -/
def MINMAXALPHABETAPRUNING_ALGO : Int := 2

/-- Module constant `MINMAXALPHABETAPRUNINGWITHHISTORY_ALGO = 3`. -/
def MINMAXALPHABETAPRUNINGWITHHISTORY_ALGO : Int := 3

/-- Module constant `MINMAX_ALGO_WITH_LOGGING = -1`. -/
def MINMAX_ALGO_WITH_LOGGING : Int := -1

/-- One callback invocation, recorded with the position it was made at. -/
inductive CB (Pos Move : Type) where
  | evalAt (p : Pos)
  | applyMax (p : Pos) (m : Move)
  | applyMin (p : Pos) (m : Move)
  | undoMax (p : Pos) (m : Move)
  | undoMin (p : Pos) (m : Move)
  | enumMax (p : Pos)
  | enumMin (p : Pos)
  deriving DecidableEq, Repr

/-- The mutable world visible to one search call: the shared position, the
number of `interruptFlag` reads performed so far, and the callback trace. -/
structure SearchState (Pos Move : Type) where
  pos : Pos
  tick : Nat
  trace : List (CB Pos Move)
  deriving Repr

/-- Return dictionary `{KEY_EVAL, KEY_BESTMOVE}` of the history-free variants. -/
structure MMResult (Move : Type) where
  eval : Int
  bestMove : Option Move
  deriving DecidableEq, Repr

/-- Return dictionary `{KEY_EVAL, KEY_BESTMOVE, KEY_HISTORY}` of
`minMaxAlphaBetaPruningWithHistory`. -/
structure ABHResult (Move : Type) where
  eval : Int
  bestMove : Option Move
  history : List Move
  deriving DecidableEq, Repr

/-- The `GameAlgo` object: the seven adapter callbacks (as pure functions of
the position) and the configuration `MIN_EVAL`, `MAX_EVAL`, `DEPTH`. -/
structure GameAlgo (Pos Move : Type) where
  evalFunc : Pos → Int
  maximizerMoveFunc : Pos → Move → Pos
  minimizerMoveFunc : Pos → Move → Pos
  maximizerUndoMoveFunc : Pos → Move → Pos
  minimizerUndoMoveFunc : Pos → Move → Pos
  getListOfPossibleMovesAsMaximizer : Pos → List Move
  getListOfPossibleMovesAsMinimizer : Pos → List Move
  MIN_EVAL : Int
  MAX_EVAL : Int
  DEPTH : Nat

variable {Pos Move : Type}

/-- The move list the acting perspective enumerates at a position. -/
def moveListOf (g : GameAlgo Pos Move) (maximizingPlayer : Bool) (p : Pos) :
    List Move :=
  if maximizingPlayer then g.getListOfPossibleMovesAsMaximizer p
  else g.getListOfPossibleMovesAsMinimizer p

/-- The enumeration event the acting perspective generates. -/
def enumEv (maximizingPlayer : Bool) (p : Pos) : CB Pos Move :=
  if maximizingPlayer then .enumMax p else .enumMin p

/-- Maximizer `for move in moveList` loop of `GameAlgo.minimax`
(source lines 129-145): apply, recurse, undo, adopt on strict `>`. -/
def minimaxMaxLoop (g : GameAlgo Pos Move)
    (child : SearchState Pos Move → MMResult Move × SearchState Pos Move) :
    List Move → MMResult Move → SearchState Pos Move →
      MMResult Move × SearchState Pos Move
  | [], best, s => (best, s)
  | move :: rest, best, s =>
      let p1 := g.maximizerMoveFunc s.pos move
      let res := child ⟨p1, s.tick, s.trace ++ [.applyMax s.pos move]⟩
      let evalResult := res.1
      let s1 := res.2
      let p2 := g.maximizerUndoMoveFunc s1.pos move
      let s2 : SearchState Pos Move := ⟨p2, s1.tick, s1.trace ++ [.undoMax s1.pos move]⟩
      let best' := if evalResult.eval > best.eval then
          ⟨evalResult.eval, some move⟩ else best
      minimaxMaxLoop g child rest best' s2

/-- Minimizer loop of `GameAlgo.minimax` (source lines 149-165):
apply, recurse, undo, adopt on strict `<`. -/
def minimaxMinLoop (g : GameAlgo Pos Move)
    (child : SearchState Pos Move → MMResult Move × SearchState Pos Move) :
    List Move → MMResult Move → SearchState Pos Move →
      MMResult Move × SearchState Pos Move
  | [], best, s => (best, s)
  | move :: rest, best, s =>
      let p1 := g.minimizerMoveFunc s.pos move
      let res := child ⟨p1, s.tick, s.trace ++ [.applyMin s.pos move]⟩
      let evalResult := res.1
      let s1 := res.2
      let p2 := g.minimizerUndoMoveFunc s1.pos move
      let s2 : SearchState Pos Move := ⟨p2, s1.tick, s1.trace ++ [.undoMin s1.pos move]⟩
      let best' := if evalResult.eval < best.eval then
          ⟨evalResult.eval, some move⟩ else best
      minimaxMinLoop g child rest best' s2

/-- `GameAlgo.minimax` (source lines 118-165).  The move list is read before
the depth test, the base case returns `evaluate()` with no best move, and
otherwise the perspective's loop runs seeded `{MIN_EVAL, None}` /
`{MAX_EVAL, None}`. -/
def minimax (g : GameAlgo Pos Move) :
    Nat → Bool → SearchState Pos Move → MMResult Move × SearchState Pos Move
  | 0, maximizingPlayer, s =>
      let s0 : SearchState Pos Move :=
        ⟨s.pos, s.tick, s.trace ++ [enumEv maximizingPlayer s.pos]⟩
      (⟨g.evalFunc s0.pos, none⟩, ⟨s0.pos, s0.tick, s0.trace ++ [.evalAt s0.pos]⟩)
  | depth + 1, maximizingPlayer, s =>
      let moveList := moveListOf g maximizingPlayer s.pos
      let s0 : SearchState Pos Move :=
        ⟨s.pos, s.tick, s.trace ++ [enumEv maximizingPlayer s.pos]⟩
      if moveList.isEmpty then
        (⟨g.evalFunc s0.pos, none⟩, ⟨s0.pos, s0.tick, s0.trace ++ [.evalAt s0.pos]⟩)
      else if maximizingPlayer then
        minimaxMaxLoop g (fun s1 => minimax g depth false s1) moveList
          ⟨g.MIN_EVAL, none⟩ s0
      else
        minimaxMinLoop g (fun s1 => minimax g depth true s1) moveList
          ⟨g.MAX_EVAL, none⟩ s0

/-- Maximizer loop of `GameAlgo.minimaxWithLogging` (source lines 189-212):
as `minimax`, plus an `interruptFlag` poll at the top of every iteration;
logging itself is disabled in the source and performs no callback. -/
def minimaxLogMaxLoop (g : GameAlgo Pos Move) (intr : Nat → Bool)
    (child : SearchState Pos Move → MMResult Move × SearchState Pos Move) :
    List Move → MMResult Move → SearchState Pos Move →
      MMResult Move × SearchState Pos Move
  | [], best, s => (best, s)
  | move :: rest, best, s =>
      if intr s.tick then (best, ⟨s.pos, s.tick + 1, s.trace⟩)
      else
        let s0 : SearchState Pos Move := ⟨s.pos, s.tick + 1, s.trace⟩
        let p1 := g.maximizerMoveFunc s0.pos move
        let res := child ⟨p1, s0.tick, s0.trace ++ [.applyMax s0.pos move]⟩
        let evalResult := res.1
        let s1 := res.2
        let p2 := g.maximizerUndoMoveFunc s1.pos move
        let s2 : SearchState Pos Move := ⟨p2, s1.tick, s1.trace ++ [.undoMax s1.pos move]⟩
        let best' := if evalResult.eval > best.eval then
            ⟨evalResult.eval, some move⟩ else best
        minimaxLogMaxLoop g intr child rest best' s2

/-- Minimizer loop of `GameAlgo.minimaxWithLogging` (source lines 215-238). -/
def minimaxLogMinLoop (g : GameAlgo Pos Move) (intr : Nat → Bool)
    (child : SearchState Pos Move → MMResult Move × SearchState Pos Move) :
    List Move → MMResult Move → SearchState Pos Move →
      MMResult Move × SearchState Pos Move
  | [], best, s => (best, s)
  | move :: rest, best, s =>
      if intr s.tick then (best, ⟨s.pos, s.tick + 1, s.trace⟩)
      else
        let s0 : SearchState Pos Move := ⟨s.pos, s.tick + 1, s.trace⟩
        let p1 := g.minimizerMoveFunc s0.pos move
        let res := child ⟨p1, s0.tick, s0.trace ++ [.applyMin s0.pos move]⟩
        let evalResult := res.1
        let s1 := res.2
        let p2 := g.minimizerUndoMoveFunc s1.pos move
        let s2 : SearchState Pos Move := ⟨p2, s1.tick, s1.trace ++ [.undoMin s1.pos move]⟩
        let best' := if evalResult.eval < best.eval then
            ⟨evalResult.eval, some move⟩ else best
        minimaxLogMinLoop g intr child rest best' s2

/-- `GameAlgo.minimaxWithLogging` (source lines 169-238): the same traversal
as `minimax` with an interrupt poll per iteration (the `nn`-string and log
lines have no effect on the computation). -/
def minimaxWithLogging (g : GameAlgo Pos Move) (intr : Nat → Bool) :
    Nat → Bool → SearchState Pos Move → MMResult Move × SearchState Pos Move
  | 0, maximizingPlayer, s =>
      let s0 : SearchState Pos Move :=
        ⟨s.pos, s.tick, s.trace ++ [enumEv maximizingPlayer s.pos]⟩
      (⟨g.evalFunc s0.pos, none⟩, ⟨s0.pos, s0.tick, s0.trace ++ [.evalAt s0.pos]⟩)
  | depth + 1, maximizingPlayer, s =>
      let moveList := moveListOf g maximizingPlayer s.pos
      let s0 : SearchState Pos Move :=
        ⟨s.pos, s.tick, s.trace ++ [enumEv maximizingPlayer s.pos]⟩
      if moveList.isEmpty then
        (⟨g.evalFunc s0.pos, none⟩, ⟨s0.pos, s0.tick, s0.trace ++ [.evalAt s0.pos]⟩)
      else if maximizingPlayer then
        minimaxLogMaxLoop g intr (fun s1 => minimaxWithLogging g intr depth false s1)
          moveList ⟨g.MIN_EVAL, none⟩ s0
      else
        minimaxLogMinLoop g intr (fun s1 => minimaxWithLogging g intr depth true s1)
          moveList ⟨g.MAX_EVAL, none⟩ s0

/-- Maximizer loop of `GameAlgo.minMaxAlphaBetaPruning` (source lines
260-292): poll the interrupt flag, apply, recurse with the current window,
undo, adopt on strict `>`, raise `alpha` to the best so far, and break on
`beta <= alpha`. -/
def abMaxLoop (g : GameAlgo Pos Move) (intr : Nat → Bool)
    (child : Int → Int → SearchState Pos Move → MMResult Move × SearchState Pos Move) :
    List Move → MMResult Move → Int → Int → SearchState Pos Move →
      MMResult Move × SearchState Pos Move
  | [], best, _, _, s => (best, s)
  | move :: rest, best, alpha, beta, s =>
      if intr s.tick then (best, ⟨s.pos, s.tick + 1, s.trace⟩)
      else
        let s0 : SearchState Pos Move := ⟨s.pos, s.tick + 1, s.trace⟩
        let p1 := g.maximizerMoveFunc s0.pos move
        let res := child alpha beta ⟨p1, s0.tick, s0.trace ++ [.applyMax s0.pos move]⟩
        let evalResult := res.1
        let s1 := res.2
        let p2 := g.maximizerUndoMoveFunc s1.pos move
        let s2 : SearchState Pos Move := ⟨p2, s1.tick, s1.trace ++ [.undoMax s1.pos move]⟩
        let best' := if evalResult.eval > best.eval then
            ⟨evalResult.eval, some move⟩ else best
        let alpha' := if best'.eval > alpha then best'.eval else alpha
        if beta ≤ alpha' then (best', s2)
        else abMaxLoop g intr child rest best' alpha' beta s2

/-- Minimizer loop of `GameAlgo.minMaxAlphaBetaPruning` (source lines
297-329): adopt on strict `<`; then, when the updated best is still below
`beta`, the source assigns the child's score into the result and lowers
`beta` to it; break on `beta <= alpha`. -/
def abMinLoop (g : GameAlgo Pos Move) (intr : Nat → Bool)
    (child : Int → Int → SearchState Pos Move → MMResult Move × SearchState Pos Move) :
    List Move → MMResult Move → Int → Int → SearchState Pos Move →
      MMResult Move × SearchState Pos Move
  | [], best, _, _, s => (best, s)
  | move :: rest, best, alpha, beta, s =>
      if intr s.tick then (best, ⟨s.pos, s.tick + 1, s.trace⟩)
      else
        let s0 : SearchState Pos Move := ⟨s.pos, s.tick + 1, s.trace⟩
        let p1 := g.minimizerMoveFunc s0.pos move
        let res := child alpha beta ⟨p1, s0.tick, s0.trace ++ [.applyMin s0.pos move]⟩
        let evalResult := res.1
        let s1 := res.2
        let p2 := g.minimizerUndoMoveFunc s1.pos move
        let s2 : SearchState Pos Move := ⟨p2, s1.tick, s1.trace ++ [.undoMin s1.pos move]⟩
        let best' := if evalResult.eval < best.eval then
            ⟨evalResult.eval, some move⟩ else best
        let best'' := if best'.eval < beta then
            (⟨evalResult.eval, best'.bestMove⟩ : MMResult Move) else best'
        let beta' := if best'.eval < beta then evalResult.eval else beta
        if beta' ≤ alpha then (best'', s2)
        else abMinLoop g intr child rest best'' alpha beta' s2

/-- `GameAlgo.minMaxAlphaBetaPruning` (source lines 240-329).  Depth 0
returns `evaluate()` before any enumeration; an empty move list returns
`evaluate()`; otherwise the loops run seeded with `MIN_EVAL`/`MAX_EVAL`
and `moveList[0]` as initial best move. -/
def minMaxAlphaBetaPruning (g : GameAlgo Pos Move) (intr : Nat → Bool) :
    Nat → Bool → Int → Int → SearchState Pos Move →
      MMResult Move × SearchState Pos Move
  | 0, _, _, _, s =>
      (⟨g.evalFunc s.pos, none⟩, ⟨s.pos, s.tick, s.trace ++ [.evalAt s.pos]⟩)
  | depth + 1, maximizingPlayer, alpha, beta, s =>
      let s0 : SearchState Pos Move :=
        ⟨s.pos, s.tick, s.trace ++ [enumEv maximizingPlayer s.pos]⟩
      match moveListOf g maximizingPlayer s.pos with
      | [] =>
          (⟨g.evalFunc s0.pos, none⟩, ⟨s0.pos, s0.tick, s0.trace ++ [.evalAt s0.pos]⟩)
      | m0 :: ms =>
          if maximizingPlayer then
            abMaxLoop g intr
              (fun a b s1 => minMaxAlphaBetaPruning g intr depth false a b s1)
              (m0 :: ms) ⟨g.MIN_EVAL, some m0⟩ alpha beta s0
          else
            abMinLoop g intr
              (fun a b s1 => minMaxAlphaBetaPruning g intr depth true a b s1)
              (m0 :: ms) ⟨g.MAX_EVAL, some m0⟩ alpha beta s0

/-- Maximizer loop of `GameAlgo.minMaxAlphaBetaPruningWithHistory` (source
lines 356-392): as `abMaxLoop`, and the child is called with the path
extended by the tried move; on adoption the child's history is copied into
the result together with its score. -/
def abhMaxLoop (g : GameAlgo Pos Move) (intr : Nat → Bool)
    (child : Int → Int → List Move → SearchState Pos Move → ABHResult Move × SearchState Pos Move)
    (hist : List Move) :
    List Move → ABHResult Move → Int → Int → SearchState Pos Move →
      ABHResult Move × SearchState Pos Move
  | [], best, _, _, s => (best, s)
  | move :: rest, best, alpha, beta, s =>
      if intr s.tick then (best, ⟨s.pos, s.tick + 1, s.trace⟩)
      else
        let s0 : SearchState Pos Move := ⟨s.pos, s.tick + 1, s.trace⟩
        let p1 := g.maximizerMoveFunc s0.pos move
        let res := child alpha beta (hist ++ [move])
          ⟨p1, s0.tick, s0.trace ++ [.applyMax s0.pos move]⟩
        let evalResult := res.1
        let s1 := res.2
        let p2 := g.maximizerUndoMoveFunc s1.pos move
        let s2 : SearchState Pos Move := ⟨p2, s1.tick, s1.trace ++ [.undoMax s1.pos move]⟩
        let best' := if evalResult.eval > best.eval then
            ⟨evalResult.eval, some move, evalResult.history⟩ else best
        let alpha' := if best'.eval > alpha then best'.eval else alpha
        if beta ≤ alpha' then (best', s2)
        else abhMaxLoop g intr child hist rest best' alpha' beta s2

/-- Minimizer loop of `GameAlgo.minMaxAlphaBetaPruningWithHistory` (source
lines 397-434): adopt score, move and history on strict `<`; the
`beta`-tightening branch assigns only the child's score (not its history)
into the result, exactly as the source does. -/
def abhMinLoop (g : GameAlgo Pos Move) (intr : Nat → Bool)
    (child : Int → Int → List Move → SearchState Pos Move → ABHResult Move × SearchState Pos Move)
    (hist : List Move) :
    List Move → ABHResult Move → Int → Int → SearchState Pos Move →
      ABHResult Move × SearchState Pos Move
  | [], best, _, _, s => (best, s)
  | move :: rest, best, alpha, beta, s =>
      if intr s.tick then (best, ⟨s.pos, s.tick + 1, s.trace⟩)
      else
        let s0 : SearchState Pos Move := ⟨s.pos, s.tick + 1, s.trace⟩
        let p1 := g.minimizerMoveFunc s0.pos move
        let res := child alpha beta (hist ++ [move])
          ⟨p1, s0.tick, s0.trace ++ [.applyMin s0.pos move]⟩
        let evalResult := res.1
        let s1 := res.2
        let p2 := g.minimizerUndoMoveFunc s1.pos move
        let s2 : SearchState Pos Move := ⟨p2, s1.tick, s1.trace ++ [.undoMin s1.pos move]⟩
        let best' := if evalResult.eval < best.eval then
            ⟨evalResult.eval, some move, evalResult.history⟩ else best
        let best'' := if best'.eval < beta then
            (⟨evalResult.eval, best'.bestMove, best'.history⟩ : ABHResult Move) else best'
        let beta' := if best'.eval < beta then evalResult.eval else beta
        if beta' ≤ alpha then (best'', s2)
        else abhMinLoop g intr child hist rest best'' alpha beta' s2

/-- `GameAlgo.minMaxAlphaBetaPruningWithHistory` (source lines 331-434).
`hist` is `historyToThisNode` ( `[]` at the root); terminal nodes return it
unchanged, the loops seed with the out-of-range sentinels `MIN_EVAL-1` /
`MAX_EVAL+1` and `moveList[0]`. -/
def minMaxAlphaBetaPruningWithHistory (g : GameAlgo Pos Move) (intr : Nat → Bool) :
    Nat → Bool → Int → Int → List Move → SearchState Pos Move →
      ABHResult Move × SearchState Pos Move
  | 0, _, _, _, hist, s =>
      (⟨g.evalFunc s.pos, none, hist⟩, ⟨s.pos, s.tick, s.trace ++ [.evalAt s.pos]⟩)
  | depth + 1, maximizingPlayer, alpha, beta, hist, s =>
      let s0 : SearchState Pos Move :=
        ⟨s.pos, s.tick, s.trace ++ [enumEv maximizingPlayer s.pos]⟩
      match moveListOf g maximizingPlayer s.pos with
      | [] =>
          (⟨g.evalFunc s0.pos, none, hist⟩,
            ⟨s0.pos, s0.tick, s0.trace ++ [.evalAt s0.pos]⟩)
      | m0 :: ms =>
          if maximizingPlayer then
            abhMaxLoop g intr
              (fun a b h s1 => minMaxAlphaBetaPruningWithHistory g intr depth false a b h s1)
              hist (m0 :: ms) ⟨g.MIN_EVAL - 1, some m0, hist⟩ alpha beta s0
          else
            abhMinLoop g intr
              (fun a b h s1 => minMaxAlphaBetaPruningWithHistory g intr depth true a b h s1)
              hist (m0 :: ms) ⟨g.MAX_EVAL + 1, some m0, hist⟩ alpha beta s0

/-- `GameAlgo.calculateMove` (source lines 99-109).  The method first
executes `self.interruptFlag = False`, so the recursion observes only the
asynchronous writes `intr`, never the prior flag value `flag0`. -/
def calculateMove (g : GameAlgo Pos Move) (flag0 : Bool) (intr : Nat → Bool)
    (whichAlgo : Int) (maximizingPlayer : Bool) (depth : Nat)
    (s : SearchState Pos Move) : Option Move × SearchState Pos Move :=
  let observed : Nat → Bool := fun k => intr k
  if whichAlgo = MINMAX_ALGO then
    let r := minimax g depth maximizingPlayer s
    (r.1.bestMove, r.2)
  else if whichAlgo = MINMAXALPHABETAPRUNING_ALGO then
    let r := minMaxAlphaBetaPruning g observed depth maximizingPlayer
      g.MIN_EVAL g.MAX_EVAL s
    (r.1.bestMove, r.2)
  else if whichAlgo = MINMAX_ALGO_WITH_LOGGING then
    let r := minimaxWithLogging g observed depth maximizingPlayer s
    (r.1.bestMove, r.2)
  else
    let r := minimax g g.DEPTH maximizingPlayer s
    (r.1.bestMove, r.2)

/-- `GameAlgo.calculateMoveWithHistory` (source lines 111-115).  No reset of
`interruptFlag` is performed, so the recursion observes the prior flag value
`flag0` (a set flag stays set) in addition to the asynchronous writes. -/
def calculateMoveWithHistory (g : GameAlgo Pos Move) (flag0 : Bool)
    (intr : Nat → Bool) (whichAlgo : Int) (maximizingPlayer : Bool) (depth : Nat)
    (s : SearchState Pos Move) : Option (ABHResult Move) × SearchState Pos Move :=
  let observed : Nat → Bool := fun k => flag0 || intr k
  if whichAlgo = MINMAXALPHABETAPRUNINGWITHHISTORY_ALGO then
    let r := minMaxAlphaBetaPruningWithHistory g observed depth maximizingPlayer
      g.MIN_EVAL g.MAX_EVAL [] s
    (some r.1, r.2)
  else (none, s)

/-! ### Pure models

State-free companions of the instrumented functions above, used to reason
about returned values.  They mirror the same control flow; bridge lemmas
below prove they agree with the instrumented functions whenever the adapter
honors the apply/undo inverse contract and no interrupt is raised. -/

/-- Pure maximizer loop of `minimax`: fold with adoption on strict `>`. -/
def mmStepMax (f : Move → Int) (best : MMResult Move) (m : Move) : MMResult Move :=
  if f m > best.eval then ⟨f m, some m⟩ else best

/-- Pure minimizer loop of `minimax`: fold with adoption on strict `<`. -/
def mmStepMin (f : Move → Int) (best : MMResult Move) (m : Move) : MMResult Move :=
  if f m < best.eval then ⟨f m, some m⟩ else best

/-- Pure model of `GameAlgo.minimax`: the result dictionary as a function of
the position alone. -/
def mmPure (g : GameAlgo Pos Move) : Nat → Bool → Pos → MMResult Move
  | 0, _, p => ⟨g.evalFunc p, none⟩
  | depth + 1, maximizingPlayer, p =>
      let moveList := moveListOf g maximizingPlayer p
      if moveList.isEmpty then ⟨g.evalFunc p, none⟩
      else if maximizingPlayer then
        moveList.foldl
          (mmStepMax (fun m => (mmPure g depth false (g.maximizerMoveFunc p m)).eval))
          ⟨g.MIN_EVAL, none⟩
      else
        moveList.foldl
          (mmStepMin (fun m => (mmPure g depth true (g.minimizerMoveFunc p m)).eval))
          ⟨g.MAX_EVAL, none⟩

/-- The minimax value of a node: the score component of `mmPure`. -/
def mmv (g : GameAlgo Pos Move) (depth : Nat) (maximizingPlayer : Bool) (p : Pos) : Int :=
  (mmPure g depth maximizingPlayer p).eval

/-- Pure maximizer loop of `minMaxAlphaBetaPruning` (uninterrupted run). -/
def abPureMaxLoop (child : Int → Int → Pos → MMResult Move)
    (applyF : Pos → Move → Pos) (p : Pos) :
    List Move → MMResult Move → Int → Int → MMResult Move
  | [], best, _, _ => best
  | move :: rest, best, alpha, beta =>
      let evalResult := child alpha beta (applyF p move)
      let best' := if evalResult.eval > best.eval then
          (⟨evalResult.eval, some move⟩ : MMResult Move) else best
      let alpha' := if best'.eval > alpha then best'.eval else alpha
      if beta ≤ alpha' then best'
      else abPureMaxLoop child applyF p rest best' alpha' beta

/-- Pure minimizer loop of `minMaxAlphaBetaPruning` (uninterrupted run),
including the source's beta-tightening assignment of the child's score. -/
def abPureMinLoop (child : Int → Int → Pos → MMResult Move)
    (applyF : Pos → Move → Pos) (p : Pos) :
    List Move → MMResult Move → Int → Int → MMResult Move
  | [], best, _, _ => best
  | move :: rest, best, alpha, beta =>
      let evalResult := child alpha beta (applyF p move)
      let best' := if evalResult.eval < best.eval then
          (⟨evalResult.eval, some move⟩ : MMResult Move) else best
      let best'' := if best'.eval < beta then
          (⟨evalResult.eval, best'.bestMove⟩ : MMResult Move) else best'
      let beta' := if best'.eval < beta then evalResult.eval else beta
      if beta' ≤ alpha then best''
      else abPureMinLoop child applyF p rest best'' alpha beta'

/-- Pure model of `GameAlgo.minMaxAlphaBetaPruning` for an uninterrupted
run: the result dictionary as a function of depth, perspective, window and
position. -/
def abPure (g : GameAlgo Pos Move) : Nat → Bool → Int → Int → Pos → MMResult Move
  | 0, _, _, _, p => ⟨g.evalFunc p, none⟩
  | depth + 1, maximizingPlayer, alpha, beta, p =>
      match moveListOf g maximizingPlayer p with
      | [] => ⟨g.evalFunc p, none⟩
      | m0 :: ms =>
          if maximizingPlayer then
            abPureMaxLoop (fun a b q => abPure g depth false a b q)
              g.maximizerMoveFunc p (m0 :: ms) ⟨g.MIN_EVAL, some m0⟩ alpha beta
          else
            abPureMinLoop (fun a b q => abPure g depth true a b q)
              g.minimizerMoveFunc p (m0 :: ms) ⟨g.MAX_EVAL, some m0⟩ alpha beta

/-- Pure maximizer loop of `minMaxAlphaBetaPruningWithHistory`
(uninterrupted run). -/
def abhPureMaxLoop (child : Int → Int → List Move → Pos → ABHResult Move)
    (applyF : Pos → Move → Pos) (hist : List Move) (p : Pos) :
    List Move → ABHResult Move → Int → Int → ABHResult Move
  | [], best, _, _ => best
  | move :: rest, best, alpha, beta =>
      let evalResult := child alpha beta (hist ++ [move]) (applyF p move)
      let best' := if evalResult.eval > best.eval then
          (⟨evalResult.eval, some move, evalResult.history⟩ : ABHResult Move) else best
      let alpha' := if best'.eval > alpha then best'.eval else alpha
      if beta ≤ alpha' then best'
      else abhPureMaxLoop child applyF hist p rest best' alpha' beta

/-- Pure minimizer loop of `minMaxAlphaBetaPruningWithHistory`
(uninterrupted run). -/
def abhPureMinLoop (child : Int → Int → List Move → Pos → ABHResult Move)
    (applyF : Pos → Move → Pos) (hist : List Move) (p : Pos) :
    List Move → ABHResult Move → Int → Int → ABHResult Move
  | [], best, _, _ => best
  | move :: rest, best, alpha, beta =>
      let evalResult := child alpha beta (hist ++ [move]) (applyF p move)
      let best' := if evalResult.eval < best.eval then
          (⟨evalResult.eval, some move, evalResult.history⟩ : ABHResult Move) else best
      let best'' := if best'.eval < beta then
          (⟨evalResult.eval, best'.bestMove, best'.history⟩ : ABHResult Move) else best'
      let beta' := if best'.eval < beta then evalResult.eval else beta
      if beta' ≤ alpha then best''
      else abhPureMinLoop child applyF hist p rest best'' alpha beta'

/-- Pure model of `GameAlgo.minMaxAlphaBetaPruningWithHistory` for an
uninterrupted run. -/
def abhPure (g : GameAlgo Pos Move) :
    Nat → Bool → Int → Int → List Move → Pos → ABHResult Move
  | 0, _, _, _, hist, p => ⟨g.evalFunc p, none, hist⟩
  | depth + 1, maximizingPlayer, alpha, beta, hist, p =>
      match moveListOf g maximizingPlayer p with
      | [] => ⟨g.evalFunc p, none, hist⟩
      | m0 :: ms =>
          if maximizingPlayer then
            abhPureMaxLoop (fun a b h q => abhPure g depth false a b h q)
              g.maximizerMoveFunc hist p (m0 :: ms)
              ⟨g.MIN_EVAL - 1, some m0, hist⟩ alpha beta
          else
            abhPureMinLoop (fun a b h q => abhPure g depth true a b h q)
              g.minimizerMoveFunc hist p (m0 :: ms)
              ⟨g.MAX_EVAL + 1, some m0, hist⟩ alpha beta

/-- Replay a move sequence through the apply callbacks, alternating
perspectives starting from `maximizingPlayer`. -/
def replayFrom (g : GameAlgo Pos Move) : Pos → Bool → List Move → Pos
  | p, _, [] => p
  | p, maximizingPlayer, m :: rest =>
      replayFrom g
        (if maximizingPlayer then g.maximizerMoveFunc p m else g.minimizerMoveFunc p m)
        (!maximizingPlayer) rest

/-! ### Stack discipline of the callback trace -/

/-- Feed one trace event to a stack of pending (perspective, move) frames:
an apply pushes, an undo must match the top frame exactly, every other
callback leaves the stack unchanged. -/
def stackStep [DecidableEq Move] :
    List (Bool × Move) → CB Pos Move → Option (List (Bool × Move))
  | st, .applyMax _ m => some ((true, m) :: st)
  | st, .applyMin _ m => some ((false, m) :: st)
  | (true, m') :: st, .undoMax _ m => if m' = m then some st else none
  | _, .undoMax _ _ => none
  | (false, m') :: st, .undoMin _ m => if m' = m then some st else none
  | _, .undoMin _ _ => none
  | st, .evalAt _ => some st
  | st, .enumMax _ => some st
  | st, .enumMin _ => some st

/-- Run a whole trace through `stackStep`. -/
def stackRun [DecidableEq Move] (st : List (Bool × Move)) :
    List (CB Pos Move) → Option (List (Bool × Move))
  | [] => some st
  | e :: rest =>
      match stackStep st e with
      | none => none
      | some st' => stackRun st' rest

/-- Number of maximizer `applyMove` calls recorded in a trace. -/
def countApplyMax : List (CB Pos Move) → Nat
  | [] => 0
  | .applyMax _ _ :: rest => countApplyMax rest + 1
  | _ :: rest => countApplyMax rest

/-- Number of maximizer `undoMove` calls recorded in a trace. -/
def countUndoMax : List (CB Pos Move) → Nat
  | [] => 0
  | .undoMax _ _ :: rest => countUndoMax rest + 1
  | _ :: rest => countUndoMax rest

/-- Number of minimizer `applyMove` calls recorded in a trace. -/
def countApplyMin : List (CB Pos Move) → Nat
  | [] => 0
  | .applyMin _ _ :: rest => countApplyMin rest + 1
  | _ :: rest => countApplyMin rest

/-- Number of minimizer `undoMove` calls recorded in a trace. -/
def countUndoMin : List (CB Pos Move) → Nat
  | [] => 0
  | .undoMin _ _ :: rest => countUndoMin rest + 1
  | _ :: rest => countUndoMin rest

/-! ### Concrete adapters used as test inputs

Positions are the list of moves played so far; a move is a `Nat`;
apply appends, undo drops the last element. -/

/-- The spec's Scenario A tree: root maximizer with moves `[0, 1]`
(`A = 0`, `B = 1`); leaves `[0,0] ↦ 3`, `[0,1] ↦ 5`, `[1,0] ↦ 6`,
`[1,1] ↦ 2`; engine bounds `-100`/`100`. -/
def scnA : GameAlgo (List Nat) Nat where
  evalFunc p :=
    if p = [0, 0] then 3 else if p = [0, 1] then 5
    else if p = [1, 0] then 6 else if p = [1, 1] then 2 else 0
  maximizerMoveFunc p m := p ++ [m]
  minimizerMoveFunc p m := p ++ [m]
  maximizerUndoMoveFunc p _ := p.dropLast
  minimizerUndoMoveFunc p _ := p.dropLast
  getListOfPossibleMovesAsMaximizer p := if p.length < 2 then [0, 1] else []
  getListOfPossibleMovesAsMinimizer p := if p.length < 2 then [0, 1] else []
  MIN_EVAL := -100
  MAX_EVAL := 100
  DEPTH := 6

/-- An adapter whose evaluation is constantly `MIN_EVAL = -100`: every child
of a maximizer node scores exactly the seed value, so the strict `>` never
fires. -/
def allMinGame : GameAlgo (List Nat) Nat where
  evalFunc _ := -100
  maximizerMoveFunc p m := p ++ [m]
  minimizerMoveFunc p m := p ++ [m]
  maximizerUndoMoveFunc p _ := p.dropLast
  minimizerUndoMoveFunc p _ := p.dropLast
  getListOfPossibleMovesAsMaximizer p := if p.length < 2 then [0, 1] else []
  getListOfPossibleMovesAsMinimizer p := if p.length < 2 then [0, 1] else []
  MIN_EVAL := -100
  MAX_EVAL := 100
  DEPTH := 6

/-- The all-false interrupt oracle: the flag is never seen set. -/
def noIntr : Nat → Bool := fun _ => false

/-- A fresh search state at a position: no polls yet, empty trace. -/
def st0 (p : Pos) : SearchState Pos Move := ⟨p, 0, []⟩

/-- A result whose best move is defined and drawn from the list `L`. -/
def DefinedFrom (L : List Move) (o : Option Move) : Prop :=
  o.isSome = true ∧ ∀ m, o = some m → m ∈ L

/-- A history-variant result whose score is in range and whose history
strictly extends the node's incoming path `hist` by moves that replay, from
the node's position `p` with the node's perspective, to a position
evaluating to the result's score. -/
def GoodRes (g : GameAlgo Pos Move) (hist : List Move) (p : Pos)
    (maximizingPlayer : Bool) (r : ABHResult Move) : Prop :=
  (g.MIN_EVAL ≤ r.eval ∧ r.eval ≤ g.MAX_EVAL) ∧
  ∃ tl, tl ≠ [] ∧ r.history = hist ++ tl ∧
    g.evalFunc (replayFrom g p maximizingPlayer tl) = r.eval

/-! ### Theorems -/

/-- Claim C6: at a terminal node (depth 0 or empty enumeration) both
`minimax` and `minMaxAlphaBetaPruning` return score `evaluate()` and no best
move, and at depth 0 `minMaxAlphaBetaPruning` performs no enumeration
callback: the only callback it records is the evaluation itself. -/
theorem terminal_returns_evaluate (g : GameAlgo Pos Move) (intr : Nat → Bool)
    (depth : Nat) (maximizingPlayer : Bool) (alpha beta : Int)
    (s : SearchState Pos Move)
    (h : depth = 0 ∨ moveListOf g maximizingPlayer s.pos = []) :
    (minimax g depth maximizingPlayer s).1 = ⟨g.evalFunc s.pos, none⟩ ∧
    (minMaxAlphaBetaPruning g intr depth maximizingPlayer alpha beta s).1 =
      ⟨g.evalFunc s.pos, none⟩ ∧
    (depth = 0 →
      (minMaxAlphaBetaPruning g intr depth maximizingPlayer alpha beta s).2.trace =
        s.trace ++ [CB.evalAt s.pos]) := by
  rcases h with h | h
  · subst h
    exact ⟨rfl, rfl, fun _ => rfl⟩
  · cases depth with
    | zero => exact ⟨rfl, rfl, fun _ => rfl⟩
    | succ d =>
        refine ⟨?_, ?_, ?_⟩
        · simp [minimax, h, List.isEmpty]
        · simp [minMaxAlphaBetaPruning, h]
        · intro h0; cases h0

/-- Witness for C6 at a concrete terminal input. -/
theorem terminal_returns_evaluate_witness :
    (minimax scnA 0 true (st0 [0, 0])).1 = ⟨3, none⟩ ∧
    (minMaxAlphaBetaPruning scnA noIntr 0 true (-100) 100 (st0 [0, 0])).1 =
      ⟨3, none⟩ := by
  have h := terminal_returns_evaluate scnA noIntr 0 true (-100) 100
    (st0 [0, 0]) (Or.inl rfl)
  exact ⟨by rw [h.1]; decide, by rw [h.2.1]; decide⟩

/-- Claim C2, counterexample: on the Scenario A tree the second leaf under
`B` (position `[1,1]`, value 2) IS visited by `minMaxAlphaBetaPruning`: the
move is applied and the position is evaluated — the first leaf under `B`
scores 6, which exceeds `alpha = 3`, so no cutoff fires before it. -/
theorem scenarioA_pruning_counterexample :
    CB.applyMin [1] 1 ∈
      (minMaxAlphaBetaPruning scnA noIntr 2 true (-100) 100 (st0 [])).2.trace ∧
    CB.evalAt [1, 1] ∈
      (minMaxAlphaBetaPruning scnA noIntr 2 true (-100) 100 (st0 [])).2.trace := by
  decide

/-- Claim C2 as amended: on the Scenario A tree `minMaxAlphaBetaPruning`
(full window) returns score 3 and best move `A = 0`, but the second leaf
under `B` is explored: its move is applied and it is evaluated, because
`B`'s first leaf (6) keeps the minimizer's beta above alpha. -/
theorem scenarioA_alphaBeta_result :
    (minMaxAlphaBetaPruning scnA noIntr 2 true (-100) 100 (st0 [])).1 =
      ⟨3, some 0⟩ ∧
    CB.applyMin [1] 1 ∈
      (minMaxAlphaBetaPruning scnA noIntr 2 true (-100) 100 (st0 [])).2.trace ∧
    CB.evalAt [1, 1] ∈
      (minMaxAlphaBetaPruning scnA noIntr 2 true (-100) 100 (st0 [])).2.trace := by
  decide

/-- Claim C4, counterexample: `calculateMoveWithHistory` does not reset the
interrupt flag.  With the flag already set (and no asynchronous write at
all) the search aborts at its first poll and returns the sentinel seed,
differing from the run whose prior flag is clear — so the recursion does
not start with a cleared flag regardless of the prior value. -/
theorem withHistory_no_flag_reset_counterexample :
    (calculateMoveWithHistory scnA true noIntr 3 true 2 (st0 [])).1 =
      some ⟨-101, some 0, []⟩ ∧
    (calculateMoveWithHistory scnA true noIntr 3 true 2 (st0 [])).1 ≠
      (calculateMoveWithHistory scnA false noIntr 3 true 2 (st0 [])).1 := by
  decide

/-- Claim C4 as amended: `calculateMove` does reset the cancellation flag —
its search depends only on the asynchronous writes, never on the prior flag
value — while `calculateMoveWithHistory` does not reset it: a previously
set flag is still observed by the recursion, which then returns the seed
result immediately. -/
theorem flag_reset_amended :
    (∀ (g : GameAlgo Pos Move) (flag0 : Bool) (intr : Nat → Bool)
      (whichAlgo : Int) (maximizingPlayer : Bool) (depth : Nat)
      (s : SearchState Pos Move),
      calculateMove g flag0 intr whichAlgo maximizingPlayer depth s =
        calculateMove g false intr whichAlgo maximizingPlayer depth s) ∧
    (calculateMoveWithHistory scnA true noIntr 3 true 2 (st0 [])).1 ≠
      (calculateMoveWithHistory scnA false noIntr 3 true 2 (st0 [])).1 := by
  exact ⟨fun _ _ _ _ _ _ _ => rfl, by decide⟩

/-- Claim C10: for any selector other than the three defined `calculateMove`
constants, `calculateMove` falls back to plain minimax at the engine's
configured `DEPTH`, ignoring the caller's depth, and returns its best move;
`calculateMoveWithHistory` returns `None` for any selector other than
`MINMAXALPHABETAPRUNINGWITHHISTORY_ALGO`. -/
theorem calculateMove_fallback (g : GameAlgo Pos Move) (flag0 : Bool)
    (intr : Nat → Bool) (maximizingPlayer : Bool) (depth : Nat)
    (s : SearchState Pos Move) :
    (∀ whichAlgo : Int, whichAlgo ≠ MINMAX_ALGO →
      whichAlgo ≠ MINMAXALPHABETAPRUNING_ALGO →
      whichAlgo ≠ MINMAX_ALGO_WITH_LOGGING →
      calculateMove g flag0 intr whichAlgo maximizingPlayer depth s =
        ((minimax g g.DEPTH maximizingPlayer s).1.bestMove,
          (minimax g g.DEPTH maximizingPlayer s).2)) ∧
    (∀ whichAlgo : Int, whichAlgo ≠ MINMAXALPHABETAPRUNINGWITHHISTORY_ALGO →
      (calculateMoveWithHistory g flag0 intr whichAlgo maximizingPlayer depth s).1 =
        none) := by
  constructor
  · intro w h1 h2 h3
    simp [calculateMove, h1, h2, h3]
  · intro w h4
    simp [calculateMoveWithHistory, h4]

/-- Witness for C10 at the concrete selector `7` (and `depth = 2`,
which the fallback ignores in favor of `DEPTH = 6`). -/
theorem calculateMove_fallback_witness :
    calculateMove scnA false noIntr 7 true 2 (st0 []) =
      ((minimax scnA scnA.DEPTH true (st0 [])).1.bestMove,
        (minimax scnA scnA.DEPTH true (st0 [])).2) ∧
    (calculateMoveWithHistory scnA false noIntr 7 true 2 (st0 [])).1 = none := by
  have h := calculateMove_fallback scnA false noIntr true 2 (st0 [])
  exact ⟨h.1 7 (by decide) (by decide) (by decide), h.2 7 (by decide)⟩

/-! ### Where the returned best move is drawn from -/

/-- `minimaxMaxLoop` only ever returns a best move it was seeded with or one
of the moves it iterated over. -/
theorem minimaxMaxLoop_bestMove_from (g : GameAlgo Pos Move)
    (child : SearchState Pos Move → MMResult Move × SearchState Pos Move)
    (L : List Move) :
    ∀ (ms : List Move) (best : MMResult Move) (s : SearchState Pos Move),
      (∀ m, m ∈ ms → m ∈ L) →
      (∀ m, best.bestMove = some m → m ∈ L) →
      ∀ m, (minimaxMaxLoop g child ms best s).1.bestMove = some m → m ∈ L := by
  intro ms
  induction ms with
  | nil => intro best s _ hbest; simpa [minimaxMaxLoop] using hbest
  | cons mv rest ih =>
      intro best s hms hbest
      simp only [minimaxMaxLoop]
      apply ih
      · intro m hm; exact hms m (List.mem_cons_of_mem _ hm)
      · intro m hm
        split at hm
        · cases hm; exact hms mv (by simp)
        · exact hbest m hm

/-- `minimaxMinLoop` only ever returns a best move it was seeded with or one
of the moves it iterated over. -/
theorem minimaxMinLoop_bestMove_from (g : GameAlgo Pos Move)
    (child : SearchState Pos Move → MMResult Move × SearchState Pos Move)
    (L : List Move) :
    ∀ (ms : List Move) (best : MMResult Move) (s : SearchState Pos Move),
      (∀ m, m ∈ ms → m ∈ L) →
      (∀ m, best.bestMove = some m → m ∈ L) →
      ∀ m, (minimaxMinLoop g child ms best s).1.bestMove = some m → m ∈ L := by
  intro ms
  induction ms with
  | nil => intro best s _ hbest; simpa [minimaxMinLoop] using hbest
  | cons mv rest ih =>
      intro best s hms hbest
      simp only [minimaxMinLoop]
      apply ih
      · intro m hm; exact hms m (List.mem_cons_of_mem _ hm)
      · intro m hm
        split at hm
        · cases hm; exact hms mv (by simp)
        · exact hbest m hm

/-- `abMaxLoop` keeps a defined best move drawn from the seed or the
iterated moves, through adoption, cutoff and interrupt exits alike. -/
theorem abMaxLoop_bestMove_from (g : GameAlgo Pos Move) (intr : Nat → Bool)
    (child : Int → Int → SearchState Pos Move → MMResult Move × SearchState Pos Move)
    (L : List Move) :
    ∀ (ms : List Move) (best : MMResult Move) (alpha beta : Int)
      (s : SearchState Pos Move),
      (∀ m, m ∈ ms → m ∈ L) →
      DefinedFrom L best.bestMove →
      DefinedFrom L (abMaxLoop g intr child ms best alpha beta s).1.bestMove := by
  intro ms
  induction ms with
  | nil =>
      intro best alpha beta s _ hbest
      simpa [abMaxLoop] using hbest
  | cons mv rest ih =>
      intro best alpha beta s hms hbest
      simp only [abMaxLoop]
      by_cases hi : intr s.tick
      · simp only [if_pos hi]; exact hbest
      · simp only [if_neg hi]
        set c := child alpha beta
          ⟨g.maximizerMoveFunc s.pos mv, s.tick + 1,
            s.trace ++ [CB.applyMax s.pos mv]⟩ with hc
        set B := if c.1.eval > best.eval then
          (⟨c.1.eval, some mv⟩ : MMResult Move) else best with hB
        have hBdef : DefinedFrom L B.bestMove := by
          rw [hB]
          split
          · exact ⟨rfl, fun m hm => by cases hm; exact hms mv (by simp)⟩
          · exact hbest
        repeat' split
        all_goals first
          | exact hBdef
          | exact ih _ _ _ _ (fun m hm => hms m (List.mem_cons_of_mem _ hm)) hBdef

/-- `abMinLoop` keeps a defined best move drawn from the seed or the
iterated moves; the beta-tightening branch rewrites only the score, never
the move. -/
theorem abMinLoop_bestMove_from (g : GameAlgo Pos Move) (intr : Nat → Bool)
    (child : Int → Int → SearchState Pos Move → MMResult Move × SearchState Pos Move)
    (L : List Move) :
    ∀ (ms : List Move) (best : MMResult Move) (alpha beta : Int)
      (s : SearchState Pos Move),
      (∀ m, m ∈ ms → m ∈ L) →
      DefinedFrom L best.bestMove →
      DefinedFrom L (abMinLoop g intr child ms best alpha beta s).1.bestMove := by
  intro ms
  induction ms with
  | nil =>
      intro best alpha beta s _ hbest
      simpa [abMinLoop] using hbest
  | cons mv rest ih =>
      intro best alpha beta s hms hbest
      simp only [abMinLoop]
      by_cases hi : intr s.tick
      · simp only [if_pos hi]; exact hbest
      · simp only [if_neg hi]
        set c := child alpha beta
          ⟨g.minimizerMoveFunc s.pos mv, s.tick + 1,
            s.trace ++ [CB.applyMin s.pos mv]⟩ with hc
        set B1 := if c.1.eval < best.eval then
          (⟨c.1.eval, some mv⟩ : MMResult Move) else best with hB1
        have hB1def : DefinedFrom L B1.bestMove := by
          rw [hB1]
          split
          · exact ⟨rfl, fun m hm => by cases hm; exact hms mv (by simp)⟩
          · exact hbest
        set B2 := if B1.eval < beta then
          (⟨c.1.eval, B1.bestMove⟩ : MMResult Move) else B1 with hB2
        have hB2def : DefinedFrom L B2.bestMove := by
          rw [hB2]
          split
          · exact hB1def
          · exact hB1def
        repeat' split
        all_goals first
          | exact hB2def
          | exact ih _ _ _ _ (fun m hm => hms m (List.mem_cons_of_mem _ hm)) hB2def

/-- `abhMaxLoop` keeps a defined best move drawn from the seed or the
iterated moves. -/
theorem abhMaxLoop_bestMove_from (g : GameAlgo Pos Move) (intr : Nat → Bool)
    (child : Int → Int → List Move → SearchState Pos Move → ABHResult Move × SearchState Pos Move)
    (hist : List Move) (L : List Move) :
    ∀ (ms : List Move) (best : ABHResult Move) (alpha beta : Int)
      (s : SearchState Pos Move),
      (∀ m, m ∈ ms → m ∈ L) →
      DefinedFrom L best.bestMove →
      DefinedFrom L (abhMaxLoop g intr child hist ms best alpha beta s).1.bestMove := by
  intro ms
  induction ms with
  | nil =>
      intro best alpha beta s _ hbest
      simpa [abhMaxLoop] using hbest
  | cons mv rest ih =>
      intro best alpha beta s hms hbest
      simp only [abhMaxLoop]
      by_cases hi : intr s.tick
      · simp only [if_pos hi]; exact hbest
      · simp only [if_neg hi]
        set c := child alpha beta (hist ++ [mv])
          ⟨g.maximizerMoveFunc s.pos mv, s.tick + 1,
            s.trace ++ [CB.applyMax s.pos mv]⟩ with hc
        set B := if c.1.eval > best.eval then
          (⟨c.1.eval, some mv, c.1.history⟩ : ABHResult Move) else best with hB
        have hBdef : DefinedFrom L B.bestMove := by
          rw [hB]
          split
          · exact ⟨rfl, fun m hm => by cases hm; exact hms mv (by simp)⟩
          · exact hbest
        repeat' split
        all_goals first
          | exact hBdef
          | exact ih _ _ _ _ (fun m hm => hms m (List.mem_cons_of_mem _ hm)) hBdef

/-- `abhMinLoop` keeps a defined best move drawn from the seed or the
iterated moves. -/
theorem abhMinLoop_bestMove_from (g : GameAlgo Pos Move) (intr : Nat → Bool)
    (child : Int → Int → List Move → SearchState Pos Move → ABHResult Move × SearchState Pos Move)
    (hist : List Move) (L : List Move) :
    ∀ (ms : List Move) (best : ABHResult Move) (alpha beta : Int)
      (s : SearchState Pos Move),
      (∀ m, m ∈ ms → m ∈ L) →
      DefinedFrom L best.bestMove →
      DefinedFrom L (abhMinLoop g intr child hist ms best alpha beta s).1.bestMove := by
  intro ms
  induction ms with
  | nil =>
      intro best alpha beta s _ hbest
      simpa [abhMinLoop] using hbest
  | cons mv rest ih =>
      intro best alpha beta s hms hbest
      simp only [abhMinLoop]
      by_cases hi : intr s.tick
      · simp only [if_pos hi]; exact hbest
      · simp only [if_neg hi]
        set c := child alpha beta (hist ++ [mv])
          ⟨g.minimizerMoveFunc s.pos mv, s.tick + 1,
            s.trace ++ [CB.applyMin s.pos mv]⟩ with hc
        set B1 := if c.1.eval < best.eval then
          (⟨c.1.eval, some mv, c.1.history⟩ : ABHResult Move) else best with hB1
        have hB1def : DefinedFrom L B1.bestMove := by
          rw [hB1]
          split
          · exact ⟨rfl, fun m hm => by cases hm; exact hms mv (by simp)⟩
          · exact hbest
        set B2 := if B1.eval < beta then
          (⟨c.1.eval, B1.bestMove, B1.history⟩ : ABHResult Move) else B1 with hB2
        have hB2def : DefinedFrom L B2.bestMove := by
          rw [hB2]
          split
          · exact hB1def
          · exact hB1def
        repeat' split
        all_goals first
          | exact hB2def
          | exact ih _ _ _ _ (fun m hm => hms m (List.mem_cons_of_mem _ hm)) hB2def

/-- Claim C3, counterexample: with an adapter whose evaluation is constantly
`MIN_EVAL` (which lies inside `[MIN_EVAL, MAX_EVAL]`), plain `minimax` at a
non-terminal maximizer node (depth 1, two legal moves) returns
`bestMove = None`: no child beats the `MIN_EVAL` seed under strict `>`, so
the claim that `bestMove` is `None` only at terminal nodes fails. -/
theorem bestMove_none_nonterminal_counterexample :
    (minimax allMinGame 1 true (st0 [])).1.bestMove = none ∧
    moveListOf allMinGame true [] = [0, 1] := by
  decide

/-- Claim C3 as amended: at terminal nodes all three variants return
`bestMove = None`.  At non-terminal nodes the two alpha-beta variants always
return a defined best move drawn from the node's enumeration; plain
`minimax` returns either a move drawn from the enumeration or `None` — the
latter also at non-terminal nodes, whenever no child strictly beats the
`MIN_EVAL` / `MAX_EVAL` seed. -/
theorem bestMove_enumeration_invariant (g : GameAlgo Pos Move)
    (intr : Nat → Bool) (depth : Nat) (maximizingPlayer : Bool)
    (alpha beta : Int) (hist : List Move) (s : SearchState Pos Move) :
    ((depth = 0 ∨ moveListOf g maximizingPlayer s.pos = []) →
      (minimax g depth maximizingPlayer s).1.bestMove = none ∧
      (minMaxAlphaBetaPruning g intr depth maximizingPlayer alpha beta s).1.bestMove =
        none ∧
      (minMaxAlphaBetaPruningWithHistory g intr depth maximizingPlayer alpha beta
        hist s).1.bestMove = none) ∧
    (depth ≠ 0 → moveListOf g maximizingPlayer s.pos ≠ [] →
      (∀ m, (minimax g depth maximizingPlayer s).1.bestMove = some m →
        m ∈ moveListOf g maximizingPlayer s.pos) ∧
      DefinedFrom (moveListOf g maximizingPlayer s.pos)
        (minMaxAlphaBetaPruning g intr depth maximizingPlayer alpha beta s).1.bestMove ∧
      DefinedFrom (moveListOf g maximizingPlayer s.pos)
        (minMaxAlphaBetaPruningWithHistory g intr depth maximizingPlayer alpha beta
          hist s).1.bestMove) := by
  constructor
  · rintro (h | h)
    · subst h
      exact ⟨rfl, rfl, rfl⟩
    · cases depth with
      | zero => exact ⟨rfl, rfl, rfl⟩
      | succ d =>
          refine ⟨?_, ?_, ?_⟩
          · simp [minimax, h, List.isEmpty]
          · simp [minMaxAlphaBetaPruning, h]
          · simp [minMaxAlphaBetaPruningWithHistory, h]
  · intro hd hL
    cases depth with
    | zero => exact absurd rfl hd
    | succ d =>
        rcases hML : moveListOf g maximizingPlayer s.pos with _ | ⟨m0, ms⟩
        · exact absurd hML hL
        · have hmem : ∀ m, m ∈ m0 :: ms → m ∈ m0 :: ms := fun _ hm => hm
          have hm0 : m0 ∈ m0 :: ms := by simp
          refine ⟨?_, ?_, ?_⟩
          · intro m
            cases maximizingPlayer with
            | true =>
                simp only [minimax, hML, List.isEmpty, if_true, if_false,
                  Bool.false_eq_true, ite_false, ite_true]
                intro hm
                exact minimaxMaxLoop_bestMove_from g _ _ (m0 :: ms) _ _ hmem
                  (fun m' hm' => by cases hm') m hm
            | false =>
                simp only [minimax, hML, List.isEmpty, if_true, if_false,
                  Bool.false_eq_true, ite_false, ite_true]
                intro hm
                exact minimaxMinLoop_bestMove_from g _ _ (m0 :: ms) _ _ hmem
                  (fun m' hm' => by cases hm') m hm
          · cases maximizingPlayer with
            | true =>
                simp only [minMaxAlphaBetaPruning, hML, ite_true]
                exact abMaxLoop_bestMove_from g intr _ _ (m0 :: ms) _ _ _ _ hmem
                  ⟨rfl, fun m' hm' => by cases hm'; exact hm0⟩
            | false =>
                simp only [minMaxAlphaBetaPruning, hML, Bool.false_eq_true, ite_false]
                exact abMinLoop_bestMove_from g intr _ _ (m0 :: ms) _ _ _ _ hmem
                  ⟨rfl, fun m' hm' => by cases hm'; exact hm0⟩
          · cases maximizingPlayer with
            | true =>
                simp only [minMaxAlphaBetaPruningWithHistory, hML, ite_true]
                exact abhMaxLoop_bestMove_from g intr _ hist _ (m0 :: ms) _ _ _ _ hmem
                  ⟨rfl, fun m' hm' => by cases hm'; exact hm0⟩
            | false =>
                simp only [minMaxAlphaBetaPruningWithHistory, hML,
                  Bool.false_eq_true, ite_false]
                exact abhMinLoop_bestMove_from g intr _ hist _ (m0 :: ms) _ _ _ _ hmem
                  ⟨rfl, fun m' hm' => by cases hm'; exact hm0⟩

/-- Witness for C3 (amended) at the Scenario A adapter, depth 2. -/
theorem bestMove_enumeration_invariant_witness :
    DefinedFrom (moveListOf scnA true [])
      (minMaxAlphaBetaPruning scnA noIntr 2 true (-100) 100 (st0 [])).1.bestMove :=
  ((bestMove_enumeration_invariant scnA noIntr 2 true (-100) 100 []
    (st0 [])).2 (by decide) (by decide)).2.1

/-! ### Balance of apply/undo calls (claim C7) -/

/-- Number of maximizer frames on a pending-move stack. -/
def countTrue : List (Bool × Move) → Nat
  | [] => 0
  | (b, _) :: rest => countTrue rest + (if b then 1 else 0)

/-- Number of minimizer frames on a pending-move stack. -/
def countFalse : List (Bool × Move) → Nat
  | [] => 0
  | (b, _) :: rest => countFalse rest + (if b then 0 else 1)

theorem stackRun_append [DecidableEq Move] :
    ∀ (a b : List (CB Pos Move)) (st : List (Bool × Move)),
      stackRun st (a ++ b) =
        (stackRun st a).bind (fun st' => stackRun st' b) := by
  intro a
  induction a with
  | nil => intro b st; simp [stackRun]
  | cons e rest ih =>
      intro b st
      cases he : stackStep st e with
      | none => simp [stackRun, he]
      | some st0 => simp [stackRun, he, ih]

/-- Running a trace from stack `st` to stack `st'` changes the balance of
apply and undo counts, per perspective, by exactly the change in pending
frames. -/
theorem stackRun_count [DecidableEq Move] :
    ∀ (Δ : List (CB Pos Move)) (st st' : List (Bool × Move)),
      stackRun st Δ = some st' →
      countTrue st + countApplyMax Δ = countTrue st' + countUndoMax Δ ∧
      countFalse st + countApplyMin Δ = countFalse st' + countUndoMin Δ := by
  intro Δ
  induction Δ with
  | nil =>
      intro st st' h
      simp only [stackRun, Option.some_inj] at h
      subst h
      simp [countApplyMax, countUndoMax, countApplyMin, countUndoMin]
  | cons e rest ih =>
      intro st st' h
      cases e with
      | evalAt p =>
          simp only [stackRun, stackStep] at h
          have := ih st st' h
          simp only [countApplyMax, countUndoMax, countApplyMin, countUndoMin]
          omega
      | enumMax p =>
          simp only [stackRun, stackStep] at h
          have := ih st st' h
          simp only [countApplyMax, countUndoMax, countApplyMin, countUndoMin]
          omega
      | enumMin p =>
          simp only [stackRun, stackStep] at h
          have := ih st st' h
          simp only [countApplyMax, countUndoMax, countApplyMin, countUndoMin]
          omega
      | applyMax p m =>
          simp only [stackRun, stackStep] at h
          have hx := ih ((true, m) :: st) st' h
          simp [countTrue, countFalse] at hx
          simp only [countApplyMax, countUndoMax, countApplyMin, countUndoMin]
          omega
      | applyMin p m =>
          simp only [stackRun, stackStep] at h
          have hx := ih ((false, m) :: st) st' h
          simp [countTrue, countFalse] at hx
          simp only [countApplyMax, countUndoMax, countApplyMin, countUndoMin]
          omega
      | undoMax p m =>
          rcases st with _ | ⟨⟨b, mv⟩, tl⟩
          · simp [stackRun, stackStep] at h
          · cases b with
            | false => simp [stackRun, stackStep] at h
            | true =>
                by_cases hmv : mv = m
                · subst hmv
                  simp only [stackRun, stackStep, if_pos rfl] at h
                  have hx := ih tl st' h
                  simp [countTrue, countFalse] at hx ⊢
                  simp only [countApplyMax, countUndoMax, countApplyMin, countUndoMin]
                  omega
                · simp [stackRun, stackStep, hmv] at h
      | undoMin p m =>
          rcases st with _ | ⟨⟨b, mv⟩, tl⟩
          · simp [stackRun, stackStep] at h
          · cases b with
            | true => simp [stackRun, stackStep] at h
            | false =>
                by_cases hmv : mv = m
                · subst hmv
                  simp only [stackRun, stackStep, if_pos rfl] at h
                  have hx := ih tl st' h
                  simp [countTrue, countFalse] at hx ⊢
                  simp only [countApplyMax, countUndoMax, countApplyMin, countUndoMin]
                  omega
                · simp [stackRun, stackStep, hmv] at h

theorem minimaxMaxLoop_stack [DecidableEq Move] (g : GameAlgo Pos Move)
    (child : SearchState Pos Move → MMResult Move × SearchState Pos Move)
    (hchild : ∀ s1 st, stackRun st ((child s1).2.trace) = stackRun st s1.trace) :
    ∀ (ms : List Move) (best : MMResult Move) (s : SearchState Pos Move)
      (st : List (Bool × Move)),
      stackRun st ((minimaxMaxLoop g child ms best s).2.trace) =
        stackRun st s.trace := by
  intro ms
  induction ms with
  | nil => intro best s st; rfl
  | cons mv rest ih =>
      intro best s st
      simp only [minimaxMaxLoop]
      rw [ih, stackRun_append, hchild, stackRun_append]
      cases h0 : stackRun st s.trace with
      | none => rfl
      | some st0 => simp [stackRun, stackStep]

theorem minimaxMinLoop_stack [DecidableEq Move] (g : GameAlgo Pos Move)
    (child : SearchState Pos Move → MMResult Move × SearchState Pos Move)
    (hchild : ∀ s1 st, stackRun st ((child s1).2.trace) = stackRun st s1.trace) :
    ∀ (ms : List Move) (best : MMResult Move) (s : SearchState Pos Move)
      (st : List (Bool × Move)),
      stackRun st ((minimaxMinLoop g child ms best s).2.trace) =
        stackRun st s.trace := by
  intro ms
  induction ms with
  | nil => intro best s st; rfl
  | cons mv rest ih =>
      intro best s st
      simp only [minimaxMinLoop]
      rw [ih, stackRun_append, hchild, stackRun_append]
      cases h0 : stackRun st s.trace with
      | none => rfl
      | some st0 => simp [stackRun, stackStep]

/-- `minimax` adds only a balanced block of callbacks to the trace: feeding
its whole output trace to the frame stack leaves the stack exactly as the
input trace left it. -/
theorem minimax_stack [DecidableEq Move] (g : GameAlgo Pos Move) :
    ∀ (depth : Nat) (maximizingPlayer : Bool) (s : SearchState Pos Move)
      (st : List (Bool × Move)),
      stackRun st ((minimax g depth maximizingPlayer s).2.trace) =
        stackRun st s.trace := by
  intro depth
  induction depth with
  | zero =>
      intro maximizingPlayer s st
      simp only [minimax]
      rw [stackRun_append, stackRun_append]
      cases maximizingPlayer <;>
        cases h0 : stackRun st s.trace <;> simp [h0, stackRun, stackStep, enumEv]
  | succ d ih =>
      intro maximizingPlayer s st
      simp only [minimax]
      by_cases hML : (moveListOf g maximizingPlayer s.pos).isEmpty
      · simp only [if_pos hML]
        rw [stackRun_append, stackRun_append]
        cases maximizingPlayer <;>
          cases h0 : stackRun st s.trace <;> simp [h0, stackRun, stackStep, enumEv]
      · simp only [if_neg hML]
        cases maximizingPlayer with
        | true =>
            simp only [ite_true]
            rw [minimaxMaxLoop_stack g _ (fun s1 st1 => ih false s1 st1),
              stackRun_append]
            cases h0 : stackRun st s.trace <;> simp [h0, stackRun, stackStep, enumEv]
        | false =>
            simp only [Bool.false_eq_true, ite_false]
            rw [minimaxMinLoop_stack g _ (fun s1 st1 => ih true s1 st1),
              stackRun_append]
            cases h0 : stackRun st s.trace <;> simp [h0, stackRun, stackStep, enumEv]

theorem abMaxLoop_stack [DecidableEq Move] (g : GameAlgo Pos Move)
    (intr : Nat → Bool)
    (child : Int → Int → SearchState Pos Move → MMResult Move × SearchState Pos Move)
    (hchild : ∀ a b s1 st, stackRun st ((child a b s1).2.trace) = stackRun st s1.trace) :
    ∀ (ms : List Move) (best : MMResult Move) (alpha beta : Int)
      (s : SearchState Pos Move) (st : List (Bool × Move)),
      stackRun st ((abMaxLoop g intr child ms best alpha beta s).2.trace) =
        stackRun st s.trace := by
  intro ms
  induction ms with
  | nil => intro best alpha beta s st; rfl
  | cons mv rest ih =>
      intro best alpha beta s st
      simp only [abMaxLoop]
      by_cases hi : intr s.tick
      · simp only [if_pos hi]
      · simp only [if_neg hi]
        have hstep : ∀ st1 : List (Bool × Move),
            stackRun st1
              (((child alpha beta
                ⟨g.maximizerMoveFunc s.pos mv, s.tick + 1,
                  s.trace ++ [CB.applyMax s.pos mv]⟩).2.trace) ++
                [CB.undoMax (child alpha beta
                  ⟨g.maximizerMoveFunc s.pos mv, s.tick + 1,
                    s.trace ++ [CB.applyMax s.pos mv]⟩).2.pos mv]) =
              stackRun st1 s.trace := by
          intro st1
          rw [stackRun_append, hchild, stackRun_append]
          cases h0 : stackRun st1 s.trace with
          | none => rfl
          | some st0 => simp [stackRun, stackStep]
        repeat' split
        all_goals first
          | exact hstep st
          | (rw [ih]; exact hstep st)

theorem abMinLoop_stack [DecidableEq Move] (g : GameAlgo Pos Move)
    (intr : Nat → Bool)
    (child : Int → Int → SearchState Pos Move → MMResult Move × SearchState Pos Move)
    (hchild : ∀ a b s1 st, stackRun st ((child a b s1).2.trace) = stackRun st s1.trace) :
    ∀ (ms : List Move) (best : MMResult Move) (alpha beta : Int)
      (s : SearchState Pos Move) (st : List (Bool × Move)),
      stackRun st ((abMinLoop g intr child ms best alpha beta s).2.trace) =
        stackRun st s.trace := by
  intro ms
  induction ms with
  | nil => intro best alpha beta s st; rfl
  | cons mv rest ih =>
      intro best alpha beta s st
      simp only [abMinLoop]
      by_cases hi : intr s.tick
      · simp only [if_pos hi]
      · simp only [if_neg hi]
        have hstep : ∀ st1 : List (Bool × Move),
            stackRun st1
              (((child alpha beta
                ⟨g.minimizerMoveFunc s.pos mv, s.tick + 1,
                  s.trace ++ [CB.applyMin s.pos mv]⟩).2.trace) ++
                [CB.undoMin (child alpha beta
                  ⟨g.minimizerMoveFunc s.pos mv, s.tick + 1,
                    s.trace ++ [CB.applyMin s.pos mv]⟩).2.pos mv]) =
              stackRun st1 s.trace := by
          intro st1
          rw [stackRun_append, hchild, stackRun_append]
          cases h0 : stackRun st1 s.trace with
          | none => rfl
          | some st0 => simp [stackRun, stackStep]
        repeat' split
        all_goals first
          | exact hstep st
          | (rw [ih]; exact hstep st)

/-- `minMaxAlphaBetaPruning` adds only a balanced block of callbacks to the
trace, whether it finishes normally, prunes, or is interrupted. -/
theorem minMaxAlphaBetaPruning_stack [DecidableEq Move] (g : GameAlgo Pos Move)
    (intr : Nat → Bool) :
    ∀ (depth : Nat) (maximizingPlayer : Bool) (alpha beta : Int)
      (s : SearchState Pos Move) (st : List (Bool × Move)),
      stackRun st
        ((minMaxAlphaBetaPruning g intr depth maximizingPlayer alpha beta s).2.trace) =
        stackRun st s.trace := by
  intro depth
  induction depth with
  | zero =>
      intro maximizingPlayer alpha beta s st
      simp only [minMaxAlphaBetaPruning]
      rw [stackRun_append]
      cases h0 : stackRun st s.trace <;> simp [h0, stackRun, stackStep]
  | succ d ih =>
      intro maximizingPlayer alpha beta s st
      simp only [minMaxAlphaBetaPruning]
      rcases hML : moveListOf g maximizingPlayer s.pos with _ | ⟨m0, ms⟩
      · rw [stackRun_append, stackRun_append]
        cases maximizingPlayer <;>
          cases h0 : stackRun st s.trace <;> simp [h0, stackRun, stackStep, enumEv]
      · cases maximizingPlayer with
        | true =>
            simp only [ite_true]
            rw [abMaxLoop_stack g intr _ (fun a b s1 st1 => ih false a b s1 st1),
              stackRun_append]
            cases h0 : stackRun st s.trace <;> simp [h0, stackRun, stackStep, enumEv]
        | false =>
            simp only [Bool.false_eq_true, ite_false]
            rw [abMinLoop_stack g intr _ (fun a b s1 st1 => ih true a b s1 st1),
              stackRun_append]
            cases h0 : stackRun st s.trace <;> simp [h0, stackRun, stackStep, enumEv]

theorem abhMaxLoop_stack [DecidableEq Move] (g : GameAlgo Pos Move)
    (intr : Nat → Bool)
    (child : Int → Int → List Move → SearchState Pos Move → ABHResult Move × SearchState Pos Move)
    (hchild : ∀ a b h s1 st, stackRun st ((child a b h s1).2.trace) = stackRun st s1.trace)
    (hist : List Move) :
    ∀ (ms : List Move) (best : ABHResult Move) (alpha beta : Int)
      (s : SearchState Pos Move) (st : List (Bool × Move)),
      stackRun st ((abhMaxLoop g intr child hist ms best alpha beta s).2.trace) =
        stackRun st s.trace := by
  intro ms
  induction ms with
  | nil => intro best alpha beta s st; rfl
  | cons mv rest ih =>
      intro best alpha beta s st
      simp only [abhMaxLoop]
      by_cases hi : intr s.tick
      · simp only [if_pos hi]
      · simp only [if_neg hi]
        have hstep : ∀ st1 : List (Bool × Move),
            stackRun st1
              (((child alpha beta (hist ++ [mv])
                ⟨g.maximizerMoveFunc s.pos mv, s.tick + 1,
                  s.trace ++ [CB.applyMax s.pos mv]⟩).2.trace) ++
                [CB.undoMax (child alpha beta (hist ++ [mv])
                  ⟨g.maximizerMoveFunc s.pos mv, s.tick + 1,
                    s.trace ++ [CB.applyMax s.pos mv]⟩).2.pos mv]) =
              stackRun st1 s.trace := by
          intro st1
          rw [stackRun_append, hchild, stackRun_append]
          cases h0 : stackRun st1 s.trace with
          | none => rfl
          | some st0 => simp [stackRun, stackStep]
        repeat' split
        all_goals first
          | exact hstep st
          | (rw [ih]; exact hstep st)

theorem abhMinLoop_stack [DecidableEq Move] (g : GameAlgo Pos Move)
    (intr : Nat → Bool)
    (child : Int → Int → List Move → SearchState Pos Move → ABHResult Move × SearchState Pos Move)
    (hchild : ∀ a b h s1 st, stackRun st ((child a b h s1).2.trace) = stackRun st s1.trace)
    (hist : List Move) :
    ∀ (ms : List Move) (best : ABHResult Move) (alpha beta : Int)
      (s : SearchState Pos Move) (st : List (Bool × Move)),
      stackRun st ((abhMinLoop g intr child hist ms best alpha beta s).2.trace) =
        stackRun st s.trace := by
  intro ms
  induction ms with
  | nil => intro best alpha beta s st; rfl
  | cons mv rest ih =>
      intro best alpha beta s st
      simp only [abhMinLoop]
      by_cases hi : intr s.tick
      · simp only [if_pos hi]
      · simp only [if_neg hi]
        have hstep : ∀ st1 : List (Bool × Move),
            stackRun st1
              (((child alpha beta (hist ++ [mv])
                ⟨g.minimizerMoveFunc s.pos mv, s.tick + 1,
                  s.trace ++ [CB.applyMin s.pos mv]⟩).2.trace) ++
                [CB.undoMin (child alpha beta (hist ++ [mv])
                  ⟨g.minimizerMoveFunc s.pos mv, s.tick + 1,
                    s.trace ++ [CB.applyMin s.pos mv]⟩).2.pos mv]) =
              stackRun st1 s.trace := by
          intro st1
          rw [stackRun_append, hchild, stackRun_append]
          cases h0 : stackRun st1 s.trace with
          | none => rfl
          | some st0 => simp [stackRun, stackStep]
        repeat' split
        all_goals first
          | exact hstep st
          | (rw [ih]; exact hstep st)

/-- `minMaxAlphaBetaPruningWithHistory` adds only a balanced block of
callbacks to the trace. -/
theorem minMaxAlphaBetaPruningWithHistory_stack [DecidableEq Move]
    (g : GameAlgo Pos Move) (intr : Nat → Bool) :
    ∀ (depth : Nat) (maximizingPlayer : Bool) (alpha beta : Int)
      (hist : List Move) (s : SearchState Pos Move) (st : List (Bool × Move)),
      stackRun st
        ((minMaxAlphaBetaPruningWithHistory g intr depth maximizingPlayer alpha beta
          hist s).2.trace) =
        stackRun st s.trace := by
  intro depth
  induction depth with
  | zero =>
      intro maximizingPlayer alpha beta hist s st
      simp only [minMaxAlphaBetaPruningWithHistory]
      rw [stackRun_append]
      cases h0 : stackRun st s.trace <;> simp [h0, stackRun, stackStep]
  | succ d ih =>
      intro maximizingPlayer alpha beta hist s st
      simp only [minMaxAlphaBetaPruningWithHistory]
      rcases hML : moveListOf g maximizingPlayer s.pos with _ | ⟨m0, ms⟩
      · rw [stackRun_append, stackRun_append]
        cases maximizingPlayer <;>
          cases h0 : stackRun st s.trace <;> simp [h0, stackRun, stackStep, enumEv]
      · cases maximizingPlayer with
        | true =>
            simp only [ite_true]
            rw [abhMaxLoop_stack g intr _ (fun a b h s1 st1 => ih false a b h s1 st1),
              stackRun_append]
            cases h0 : stackRun st s.trace <;> simp [h0, stackRun, stackStep, enumEv]
        | false =>
            simp only [Bool.false_eq_true, ite_false]
            rw [abhMinLoop_stack g intr _ (fun a b h s1 st1 => ih true a b h s1 st1),
              stackRun_append]
            cases h0 : stackRun st s.trace <;> simp [h0, stackRun, stackStep, enumEv]

/-- Claim C7: for every completed call of any of the three search variants —
including calls cut short by an alpha-beta cutoff or a set interrupt flag —
the callback trace has equally many apply and undo calls per perspective,
and running it through the frame stack succeeds and ends empty: every undo
names exactly the move of its matching apply, in LIFO order. -/
theorem apply_undo_balanced [DecidableEq Move] (g : GameAlgo Pos Move)
    (intr : Nat → Bool) (depth : Nat) (maximizingPlayer : Bool)
    (alpha beta : Int) (hist : List Move) (p : Pos) (t : Nat) :
    (countApplyMax (minimax g depth maximizingPlayer ⟨p, t, []⟩).2.trace =
        countUndoMax (minimax g depth maximizingPlayer ⟨p, t, []⟩).2.trace ∧
      countApplyMin (minimax g depth maximizingPlayer ⟨p, t, []⟩).2.trace =
        countUndoMin (minimax g depth maximizingPlayer ⟨p, t, []⟩).2.trace ∧
      stackRun [] (minimax g depth maximizingPlayer ⟨p, t, []⟩).2.trace = some []) ∧
    (countApplyMax (minMaxAlphaBetaPruning g intr depth maximizingPlayer alpha beta
          ⟨p, t, []⟩).2.trace =
        countUndoMax (minMaxAlphaBetaPruning g intr depth maximizingPlayer alpha beta
          ⟨p, t, []⟩).2.trace ∧
      countApplyMin (minMaxAlphaBetaPruning g intr depth maximizingPlayer alpha beta
          ⟨p, t, []⟩).2.trace =
        countUndoMin (minMaxAlphaBetaPruning g intr depth maximizingPlayer alpha beta
          ⟨p, t, []⟩).2.trace ∧
      stackRun [] (minMaxAlphaBetaPruning g intr depth maximizingPlayer alpha beta
        ⟨p, t, []⟩).2.trace = some []) ∧
    (countApplyMax (minMaxAlphaBetaPruningWithHistory g intr depth maximizingPlayer
          alpha beta hist ⟨p, t, []⟩).2.trace =
        countUndoMax (minMaxAlphaBetaPruningWithHistory g intr depth maximizingPlayer
          alpha beta hist ⟨p, t, []⟩).2.trace ∧
      countApplyMin (minMaxAlphaBetaPruningWithHistory g intr depth maximizingPlayer
          alpha beta hist ⟨p, t, []⟩).2.trace =
        countUndoMin (minMaxAlphaBetaPruningWithHistory g intr depth maximizingPlayer
          alpha beta hist ⟨p, t, []⟩).2.trace ∧
      stackRun [] (minMaxAlphaBetaPruningWithHistory g intr depth maximizingPlayer
        alpha beta hist ⟨p, t, []⟩).2.trace = some []) := by
  have h1 : stackRun ([] : List (Bool × Move))
      (minimax g depth maximizingPlayer ⟨p, t, []⟩).2.trace = some [] :=
    minimax_stack g depth maximizingPlayer ⟨p, t, []⟩ []
  have h2 : stackRun ([] : List (Bool × Move))
      (minMaxAlphaBetaPruning g intr depth maximizingPlayer alpha beta
        ⟨p, t, []⟩).2.trace = some [] :=
    minMaxAlphaBetaPruning_stack g intr depth maximizingPlayer alpha beta ⟨p, t, []⟩ []
  have h3 : stackRun ([] : List (Bool × Move))
      (minMaxAlphaBetaPruningWithHistory g intr depth maximizingPlayer alpha beta hist
        ⟨p, t, []⟩).2.trace = some [] :=
    minMaxAlphaBetaPruningWithHistory_stack g intr depth maximizingPlayer alpha beta
      hist ⟨p, t, []⟩ []
  have c1 := stackRun_count _ _ _ h1
  have c2 := stackRun_count _ _ _ h2
  have c3 := stackRun_count _ _ _ h3
  simp only [countTrue, countFalse] at c1 c2 c3
  exact ⟨⟨by omega, by omega, h1⟩, ⟨by omega, by omega, h2⟩, ⟨by omega, by omega, h3⟩⟩

/-! ### Bridges to the pure models

Whenever the adapter honors the undo-inverts-apply contract, the
instrumented searches compute the pure models' values and restore the
position. -/

theorem minimaxMaxLoop_pure (g : GameAlgo Pos Move)
    (child : SearchState Pos Move → MMResult Move × SearchState Pos Move)
    (f : Pos → MMResult Move)
    (hchild : ∀ s1, (child s1).1 = f s1.pos ∧ (child s1).2.pos = s1.pos)
    (hInvMax : ∀ p m, g.maximizerUndoMoveFunc (g.maximizerMoveFunc p m) m = p) :
    ∀ (ms : List Move) (best : MMResult Move) (s : SearchState Pos Move),
      (minimaxMaxLoop g child ms best s).1 =
        ms.foldl (mmStepMax (fun m => (f (g.maximizerMoveFunc s.pos m)).eval)) best ∧
      (minimaxMaxLoop g child ms best s).2.pos = s.pos := by
  intro ms
  induction ms with
  | nil => intro best s; exact ⟨rfl, rfl⟩
  | cons mv rest ih =>
      intro best s
      simp only [minimaxMaxLoop]
      have hcX := hchild ⟨g.maximizerMoveFunc s.pos mv, s.tick,
        s.trace ++ [CB.applyMax s.pos mv]⟩
      rw [hcX.1, hcX.2]
      simp only
      rw [hInvMax s.pos mv]
      have hrec := ih (if (f (g.maximizerMoveFunc s.pos mv)).eval > best.eval then
          ⟨(f (g.maximizerMoveFunc s.pos mv)).eval, some mv⟩ else best)
        ⟨s.pos, (child ⟨g.maximizerMoveFunc s.pos mv, s.tick,
            s.trace ++ [CB.applyMax s.pos mv]⟩).2.tick,
          (child ⟨g.maximizerMoveFunc s.pos mv, s.tick,
            s.trace ++ [CB.applyMax s.pos mv]⟩).2.trace ++
            [CB.undoMax (g.maximizerMoveFunc s.pos mv) mv]⟩
      refine ⟨?_, ?_⟩
      · rw [hrec.1]
        simp only [List.foldl_cons, mmStepMax]
      · exact hrec.2

theorem minimaxMinLoop_pure (g : GameAlgo Pos Move)
    (child : SearchState Pos Move → MMResult Move × SearchState Pos Move)
    (f : Pos → MMResult Move)
    (hchild : ∀ s1, (child s1).1 = f s1.pos ∧ (child s1).2.pos = s1.pos)
    (hInvMin : ∀ p m, g.minimizerUndoMoveFunc (g.minimizerMoveFunc p m) m = p) :
    ∀ (ms : List Move) (best : MMResult Move) (s : SearchState Pos Move),
      (minimaxMinLoop g child ms best s).1 =
        ms.foldl (mmStepMin (fun m => (f (g.minimizerMoveFunc s.pos m)).eval)) best ∧
      (minimaxMinLoop g child ms best s).2.pos = s.pos := by
  intro ms
  induction ms with
  | nil => intro best s; exact ⟨rfl, rfl⟩
  | cons mv rest ih =>
      intro best s
      simp only [minimaxMinLoop]
      have hcX := hchild ⟨g.minimizerMoveFunc s.pos mv, s.tick,
        s.trace ++ [CB.applyMin s.pos mv]⟩
      rw [hcX.1, hcX.2]
      simp only
      rw [hInvMin s.pos mv]
      have hrec := ih (if (f (g.minimizerMoveFunc s.pos mv)).eval < best.eval then
          ⟨(f (g.minimizerMoveFunc s.pos mv)).eval, some mv⟩ else best)
        ⟨s.pos, (child ⟨g.minimizerMoveFunc s.pos mv, s.tick,
            s.trace ++ [CB.applyMin s.pos mv]⟩).2.tick,
          (child ⟨g.minimizerMoveFunc s.pos mv, s.tick,
            s.trace ++ [CB.applyMin s.pos mv]⟩).2.trace ++
            [CB.undoMin (g.minimizerMoveFunc s.pos mv) mv]⟩
      refine ⟨?_, ?_⟩
      · rw [hrec.1]
        simp only [List.foldl_cons, mmStepMin]
      · exact hrec.2

/-- Under the apply/undo inverse contract, instrumented `minimax` returns
exactly the pure `mmPure` result and restores the position. -/
theorem minimax_pure_bridge (g : GameAlgo Pos Move)
    (hInvMax : ∀ p m, g.maximizerUndoMoveFunc (g.maximizerMoveFunc p m) m = p)
    (hInvMin : ∀ p m, g.minimizerUndoMoveFunc (g.minimizerMoveFunc p m) m = p) :
    ∀ (depth : Nat) (maximizingPlayer : Bool) (s : SearchState Pos Move),
      (minimax g depth maximizingPlayer s).1 = mmPure g depth maximizingPlayer s.pos ∧
      (minimax g depth maximizingPlayer s).2.pos = s.pos := by
  intro depth
  induction depth with
  | zero => intro maximizingPlayer s; exact ⟨rfl, rfl⟩
  | succ d ih =>
      intro maximizingPlayer s
      simp only [minimax, mmPure]
      by_cases hML : (moveListOf g maximizingPlayer s.pos).isEmpty
      · simp only [if_pos hML]
        exact ⟨by trivial, by trivial⟩
      · simp only [if_neg hML]
        cases maximizingPlayer with
        | true =>
            simp only [ite_true]
            exact minimaxMaxLoop_pure g _ (mmPure g d false)
              (fun s1 => ih false s1) hInvMax _ _ _
        | false =>
            simp only [Bool.false_eq_true, ite_false]
            exact minimaxMinLoop_pure g _ (mmPure g d true)
              (fun s1 => ih true s1) hInvMin _ _ _

theorem abMaxLoop_pure (g : GameAlgo Pos Move) (intr : Nat → Bool)
    (hIntr : ∀ k, intr k = false)
    (child : Int → Int → SearchState Pos Move → MMResult Move × SearchState Pos Move)
    (fc : Int → Int → Pos → MMResult Move)
    (hchild : ∀ a b s1, (child a b s1).1 = fc a b s1.pos ∧ (child a b s1).2.pos = s1.pos)
    (hInvMax : ∀ p m, g.maximizerUndoMoveFunc (g.maximizerMoveFunc p m) m = p) :
    ∀ (ms : List Move) (best : MMResult Move) (alpha beta : Int)
      (s : SearchState Pos Move),
      (abMaxLoop g intr child ms best alpha beta s).1 =
        abPureMaxLoop fc g.maximizerMoveFunc s.pos ms best alpha beta ∧
      (abMaxLoop g intr child ms best alpha beta s).2.pos = s.pos := by
  intro ms
  induction ms with
  | nil => intro best alpha beta s; exact ⟨rfl, rfl⟩
  | cons mv rest ih =>
      intro best alpha beta s
      simp only [abMaxLoop, hIntr, Bool.false_eq_true, if_false]
      have hcX := hchild alpha beta ⟨g.maximizerMoveFunc s.pos mv, s.tick + 1,
        s.trace ++ [CB.applyMax s.pos mv]⟩
      rw [hcX.1, hcX.2]
      simp only
      rw [hInvMax s.pos mv]
      simp only [abPureMaxLoop]
      refine ⟨?_, ?_⟩
      · repeat' split
        all_goals first
          | rfl
          | exact (ih _ _ _ _).1
      · repeat' split
        all_goals first
          | rfl
          | exact (ih _ _ _ _).2

theorem abMinLoop_pure (g : GameAlgo Pos Move) (intr : Nat → Bool)
    (hIntr : ∀ k, intr k = false)
    (child : Int → Int → SearchState Pos Move → MMResult Move × SearchState Pos Move)
    (fc : Int → Int → Pos → MMResult Move)
    (hchild : ∀ a b s1, (child a b s1).1 = fc a b s1.pos ∧ (child a b s1).2.pos = s1.pos)
    (hInvMin : ∀ p m, g.minimizerUndoMoveFunc (g.minimizerMoveFunc p m) m = p) :
    ∀ (ms : List Move) (best : MMResult Move) (alpha beta : Int)
      (s : SearchState Pos Move),
      (abMinLoop g intr child ms best alpha beta s).1 =
        abPureMinLoop fc g.minimizerMoveFunc s.pos ms best alpha beta ∧
      (abMinLoop g intr child ms best alpha beta s).2.pos = s.pos := by
  intro ms
  induction ms with
  | nil => intro best alpha beta s; exact ⟨rfl, rfl⟩
  | cons mv rest ih =>
      intro best alpha beta s
      simp only [abMinLoop, hIntr, Bool.false_eq_true, if_false]
      have hcX := hchild alpha beta ⟨g.minimizerMoveFunc s.pos mv, s.tick + 1,
        s.trace ++ [CB.applyMin s.pos mv]⟩
      rw [hcX.1, hcX.2]
      simp only
      rw [hInvMin s.pos mv]
      simp only [abPureMinLoop]
      refine ⟨?_, ?_⟩
      · repeat' split
        all_goals first
          | rfl
          | exact (ih _ _ _ _).1
      · repeat' split
        all_goals first
          | rfl
          | exact (ih _ _ _ _).2

/-- Under the apply/undo inverse contract and with no interrupt raised,
instrumented `minMaxAlphaBetaPruning` returns exactly the pure `abPure`
result and restores the position. -/
theorem alphaBeta_pure_bridge (g : GameAlgo Pos Move) (intr : Nat → Bool)
    (hIntr : ∀ k, intr k = false)
    (hInvMax : ∀ p m, g.maximizerUndoMoveFunc (g.maximizerMoveFunc p m) m = p)
    (hInvMin : ∀ p m, g.minimizerUndoMoveFunc (g.minimizerMoveFunc p m) m = p) :
    ∀ (depth : Nat) (maximizingPlayer : Bool) (alpha beta : Int)
      (s : SearchState Pos Move),
      (minMaxAlphaBetaPruning g intr depth maximizingPlayer alpha beta s).1 =
        abPure g depth maximizingPlayer alpha beta s.pos ∧
      (minMaxAlphaBetaPruning g intr depth maximizingPlayer alpha beta s).2.pos =
        s.pos := by
  intro depth
  induction depth with
  | zero => intro maximizingPlayer alpha beta s; exact ⟨rfl, rfl⟩
  | succ d ih =>
      intro maximizingPlayer alpha beta s
      simp only [minMaxAlphaBetaPruning, abPure]
      rcases hML : moveListOf g maximizingPlayer s.pos with _ | ⟨m0, ms⟩
      · exact ⟨by trivial, by trivial⟩
      · cases maximizingPlayer with
        | true =>
            simp only [ite_true]
            exact abMaxLoop_pure g intr hIntr _ (abPure g d false)
              (fun a b s1 => ih false a b s1) hInvMax _ _ _ _ _
        | false =>
            simp only [Bool.false_eq_true, ite_false]
            exact abMinLoop_pure g intr hIntr _ (abPure g d true)
              (fun a b s1 => ih true a b s1) hInvMin _ _ _ _ _

theorem abhMaxLoop_pure (g : GameAlgo Pos Move) (intr : Nat → Bool)
    (hIntr : ∀ k, intr k = false)
    (child : Int → Int → List Move → SearchState Pos Move → ABHResult Move × SearchState Pos Move)
    (fc : Int → Int → List Move → Pos → ABHResult Move)
    (hchild : ∀ a b h s1, (child a b h s1).1 = fc a b h s1.pos ∧ (child a b h s1).2.pos = s1.pos)
    (hInvMax : ∀ p m, g.maximizerUndoMoveFunc (g.maximizerMoveFunc p m) m = p)
    (hist : List Move) :
    ∀ (ms : List Move) (best : ABHResult Move) (alpha beta : Int)
      (s : SearchState Pos Move),
      (abhMaxLoop g intr child hist ms best alpha beta s).1 =
        abhPureMaxLoop fc g.maximizerMoveFunc hist s.pos ms best alpha beta ∧
      (abhMaxLoop g intr child hist ms best alpha beta s).2.pos = s.pos := by
  intro ms
  induction ms with
  | nil => intro best alpha beta s; exact ⟨rfl, rfl⟩
  | cons mv rest ih =>
      intro best alpha beta s
      simp only [abhMaxLoop, hIntr, Bool.false_eq_true, if_false]
      have hcX := hchild alpha beta (hist ++ [mv])
        ⟨g.maximizerMoveFunc s.pos mv, s.tick + 1, s.trace ++ [CB.applyMax s.pos mv]⟩
      rw [hcX.1, hcX.2]
      simp only
      rw [hInvMax s.pos mv]
      simp only [abhPureMaxLoop]
      refine ⟨?_, ?_⟩
      · repeat' split
        all_goals first
          | rfl
          | exact (ih _ _ _ _).1
      · repeat' split
        all_goals first
          | rfl
          | exact (ih _ _ _ _).2

theorem abhMinLoop_pure (g : GameAlgo Pos Move) (intr : Nat → Bool)
    (hIntr : ∀ k, intr k = false)
    (child : Int → Int → List Move → SearchState Pos Move → ABHResult Move × SearchState Pos Move)
    (fc : Int → Int → List Move → Pos → ABHResult Move)
    (hchild : ∀ a b h s1, (child a b h s1).1 = fc a b h s1.pos ∧ (child a b h s1).2.pos = s1.pos)
    (hInvMin : ∀ p m, g.minimizerUndoMoveFunc (g.minimizerMoveFunc p m) m = p)
    (hist : List Move) :
    ∀ (ms : List Move) (best : ABHResult Move) (alpha beta : Int)
      (s : SearchState Pos Move),
      (abhMinLoop g intr child hist ms best alpha beta s).1 =
        abhPureMinLoop fc g.minimizerMoveFunc hist s.pos ms best alpha beta ∧
      (abhMinLoop g intr child hist ms best alpha beta s).2.pos = s.pos := by
  intro ms
  induction ms with
  | nil => intro best alpha beta s; exact ⟨rfl, rfl⟩
  | cons mv rest ih =>
      intro best alpha beta s
      simp only [abhMinLoop, hIntr, Bool.false_eq_true, if_false]
      have hcX := hchild alpha beta (hist ++ [mv])
        ⟨g.minimizerMoveFunc s.pos mv, s.tick + 1, s.trace ++ [CB.applyMin s.pos mv]⟩
      rw [hcX.1, hcX.2]
      simp only
      rw [hInvMin s.pos mv]
      simp only [abhPureMinLoop]
      refine ⟨?_, ?_⟩
      · repeat' split
        all_goals first
          | rfl
          | exact (ih _ _ _ _).1
      · repeat' split
        all_goals first
          | rfl
          | exact (ih _ _ _ _).2

/-- Under the apply/undo inverse contract and with no interrupt raised,
instrumented `minMaxAlphaBetaPruningWithHistory` returns exactly the pure
`abhPure` result and restores the position. -/
theorem withHistory_pure_bridge (g : GameAlgo Pos Move) (intr : Nat → Bool)
    (hIntr : ∀ k, intr k = false)
    (hInvMax : ∀ p m, g.maximizerUndoMoveFunc (g.maximizerMoveFunc p m) m = p)
    (hInvMin : ∀ p m, g.minimizerUndoMoveFunc (g.minimizerMoveFunc p m) m = p) :
    ∀ (depth : Nat) (maximizingPlayer : Bool) (alpha beta : Int)
      (hist : List Move) (s : SearchState Pos Move),
      (minMaxAlphaBetaPruningWithHistory g intr depth maximizingPlayer alpha beta
          hist s).1 =
        abhPure g depth maximizingPlayer alpha beta hist s.pos ∧
      (minMaxAlphaBetaPruningWithHistory g intr depth maximizingPlayer alpha beta
          hist s).2.pos = s.pos := by
  intro depth
  induction depth with
  | zero => intro maximizingPlayer alpha beta hist s; exact ⟨rfl, rfl⟩
  | succ d ih =>
      intro maximizingPlayer alpha beta hist s
      simp only [minMaxAlphaBetaPruningWithHistory, abhPure]
      rcases hML : moveListOf g maximizingPlayer s.pos with _ | ⟨m0, ms⟩
      · exact ⟨by trivial, by trivial⟩
      · cases maximizingPlayer with
        | true =>
            simp only [ite_true]
            exact abhMaxLoop_pure g intr hIntr _ (abhPure g d false)
              (fun a b h s1 => ih false a b h s1) hInvMax hist _ _ _ _ _
        | false =>
            simp only [Bool.false_eq_true, ite_false]
            exact abhMinLoop_pure g intr hIntr _ (abhPure g d true)
              (fun a b h s1 => ih true a b h s1) hInvMin hist _ _ _ _ _

/-! ### Arithmetic facts about the minimax value -/

theorem le_foldl_max (f : Move → Int) :
    ∀ (ms : List Move) (b : Int), b ≤ ms.foldl (fun a m => max a (f m)) b := by
  intro ms
  induction ms with
  | nil => intro b; exact le_refl b
  | cons m rest ih =>
      intro b
      calc b ≤ max b (f m) := le_max_left _ _
        _ ≤ rest.foldl (fun a m => max a (f m)) (max b (f m)) := ih _

theorem foldl_max_mono (f : Move → Int) :
    ∀ (ms : List Move) (b b' : Int), b ≤ b' →
      ms.foldl (fun a m => max a (f m)) b ≤ ms.foldl (fun a m => max a (f m)) b' := by
  intro ms
  induction ms with
  | nil => intro b b' h; exact h
  | cons m rest ih =>
      intro b b' h
      simp only [List.foldl_cons]
      exact ih _ _ (by omega)

theorem foldl_max_pull (f : Move → Int) :
    ∀ (ms : List Move) (b x : Int),
      ms.foldl (fun a m => max a (f m)) (max b x) =
        max (ms.foldl (fun a m => max a (f m)) b) x := by
  intro ms
  induction ms with
  | nil => intro b x; rfl
  | cons m rest ih =>
      intro b x
      simp only [List.foldl_cons]
      rw [show max (max b x) (f m) = max (max b (f m)) x by omega]
      exact ih _ _

theorem foldl_max_le (f : Move → Int) (M : Int) :
    ∀ (ms : List Move) (b : Int), (∀ m, m ∈ ms → f m ≤ M) → b ≤ M →
      ms.foldl (fun a m => max a (f m)) b ≤ M := by
  intro ms
  induction ms with
  | nil => intro b _ hb; exact hb
  | cons m rest ih =>
      intro b hms hb
      simp only [List.foldl_cons]
      refine ih _ (fun m' hm' => hms m' (List.mem_cons_of_mem _ hm')) ?_
      have := hms m (by simp)
      omega

theorem foldl_min_le (f : Move → Int) :
    ∀ (ms : List Move) (b : Int), ms.foldl (fun a m => min a (f m)) b ≤ b := by
  intro ms
  induction ms with
  | nil => intro b; exact le_refl b
  | cons m rest ih =>
      intro b
      calc rest.foldl (fun a m => min a (f m)) (min b (f m)) ≤ min b (f m) := ih _
        _ ≤ b := min_le_left _ _

theorem foldl_min_mono (f : Move → Int) :
    ∀ (ms : List Move) (b b' : Int), b ≤ b' →
      ms.foldl (fun a m => min a (f m)) b ≤ ms.foldl (fun a m => min a (f m)) b' := by
  intro ms
  induction ms with
  | nil => intro b b' h; exact h
  | cons m rest ih =>
      intro b b' h
      simp only [List.foldl_cons]
      exact ih _ _ (by omega)

theorem foldl_min_pull (f : Move → Int) :
    ∀ (ms : List Move) (b x : Int),
      ms.foldl (fun a m => min a (f m)) (min b x) =
        min (ms.foldl (fun a m => min a (f m)) b) x := by
  intro ms
  induction ms with
  | nil => intro b x; rfl
  | cons m rest ih =>
      intro b x
      simp only [List.foldl_cons]
      rw [show min (min b x) (f m) = min (min b (f m)) x by omega]
      exact ih _ _

theorem le_foldl_min (f : Move → Int) (M : Int) :
    ∀ (ms : List Move) (b : Int), (∀ m, m ∈ ms → M ≤ f m) → M ≤ b →
      M ≤ ms.foldl (fun a m => min a (f m)) b := by
  intro ms
  induction ms with
  | nil => intro b _ hb; exact hb
  | cons m rest ih =>
      intro b hms hb
      simp only [List.foldl_cons]
      refine ih _ (fun m' hm' => hms m' (List.mem_cons_of_mem _ hm')) ?_
      have := hms m (by simp)
      omega

theorem foldl_mmStepMax_eval (f : Move → Int) :
    ∀ (ms : List Move) (b : MMResult Move),
      (ms.foldl (mmStepMax f) b).eval = ms.foldl (fun a m => max a (f m)) b.eval := by
  intro ms
  induction ms with
  | nil => intro b; rfl
  | cons m rest ih =>
      intro b
      simp only [List.foldl_cons]
      rw [ih]
      rcases le_or_lt (f m) b.eval with h | h
      · rw [show mmStepMax f b m = b by simp [mmStepMax]; omega,
          show max b.eval (f m) = b.eval by omega]
      · rw [show mmStepMax f b m = ⟨f m, some m⟩ by simp [mmStepMax, h]]
        simp only
        rw [show max b.eval (f m) = f m by omega]

theorem foldl_mmStepMin_eval (f : Move → Int) :
    ∀ (ms : List Move) (b : MMResult Move),
      (ms.foldl (mmStepMin f) b).eval = ms.foldl (fun a m => min a (f m)) b.eval := by
  intro ms
  induction ms with
  | nil => intro b; rfl
  | cons m rest ih =>
      intro b
      simp only [List.foldl_cons]
      rw [ih]
      rcases le_or_lt b.eval (f m) with h | h
      · rw [show mmStepMin f b m = b by simp [mmStepMin]; omega,
          show min b.eval (f m) = b.eval by omega]
      · rw [show mmStepMin f b m = ⟨f m, some m⟩ by simp [mmStepMin, h]]
        simp only
        rw [show min b.eval (f m) = f m by omega]

/-- Node equation for `mmPure` at a terminal successor node. -/
theorem mmPure_succ_empty (g : GameAlgo Pos Move) (d : Nat)
    (maximizingPlayer : Bool) (p : Pos)
    (hML : moveListOf g maximizingPlayer p = []) :
    mmPure g (d + 1) maximizingPlayer p = ⟨g.evalFunc p, none⟩ := by
  conv_lhs => rw [mmPure]
  rw [if_pos (by simp [hML])]

/-- Node equation for `mmPure` at a maximizer node with moves. -/
theorem mmPure_succ_max (g : GameAlgo Pos Move) (d : Nat) (p : Pos)
    (hML : moveListOf g true p ≠ []) :
    mmPure g (d + 1) true p =
      (moveListOf g true p).foldl
        (mmStepMax (fun m => (mmPure g d false (g.maximizerMoveFunc p m)).eval))
        ⟨g.MIN_EVAL, none⟩ := by
  conv_lhs => rw [mmPure]
  rw [if_neg (by simpa [List.isEmpty_iff] using hML)]
  simp only [ite_true]

/-- Node equation for `mmPure` at a minimizer node with moves. -/
theorem mmPure_succ_min (g : GameAlgo Pos Move) (d : Nat) (p : Pos)
    (hML : moveListOf g false p ≠ []) :
    mmPure g (d + 1) false p =
      (moveListOf g false p).foldl
        (mmStepMin (fun m => (mmPure g d true (g.minimizerMoveFunc p m)).eval))
        ⟨g.MAX_EVAL, none⟩ := by
  conv_lhs => rw [mmPure]
  rw [if_neg (by simpa [List.isEmpty_iff] using hML)]
  simp only [Bool.false_eq_true, ite_false]

/-- Node equation for the minimax value at a maximizer node with moves. -/
theorem mmv_succ_max (g : GameAlgo Pos Move) (d : Nat) (p : Pos)
    (hML : moveListOf g true p ≠ []) :
    mmv g (d + 1) true p =
      (moveListOf g true p).foldl
        (fun a m => max a (mmv g d false (g.maximizerMoveFunc p m))) g.MIN_EVAL := by
  unfold mmv
  rw [mmPure_succ_max g d p hML, foldl_mmStepMax_eval]

/-- Node equation for the minimax value at a minimizer node with moves. -/
theorem mmv_succ_min (g : GameAlgo Pos Move) (d : Nat) (p : Pos)
    (hML : moveListOf g false p ≠ []) :
    mmv g (d + 1) false p =
      (moveListOf g false p).foldl
        (fun a m => min a (mmv g d true (g.minimizerMoveFunc p m))) g.MAX_EVAL := by
  unfold mmv
  rw [mmPure_succ_min g d p hML, foldl_mmStepMin_eval]

/-- With in-range evaluations, the minimax value stays in range. -/
theorem mmv_range (g : GameAlgo Pos Move)
    (hEval : ∀ p, g.MIN_EVAL ≤ g.evalFunc p ∧ g.evalFunc p ≤ g.MAX_EVAL) :
    ∀ (d : Nat) (maximizingPlayer : Bool) (p : Pos),
      g.MIN_EVAL ≤ mmv g d maximizingPlayer p ∧
      mmv g d maximizingPlayer p ≤ g.MAX_EVAL := by
  intro d
  induction d with
  | zero => intro maximizingPlayer p; exact hEval p
  | succ d ih =>
      intro maximizingPlayer p
      by_cases hML : moveListOf g maximizingPlayer p = []
      · have he : mmv g (d + 1) maximizingPlayer p = g.evalFunc p := by
          unfold mmv
          rw [mmPure_succ_empty g d maximizingPlayer p hML]
        rw [he]; exact hEval p
      · have hMM : g.MIN_EVAL ≤ g.MAX_EVAL := le_trans (hEval p).1 (hEval p).2
        cases maximizingPlayer with
        | true =>
            rw [mmv_succ_max g d p hML]
            constructor
            · exact le_foldl_max _ _ _
            · exact foldl_max_le _ _ _ _ (fun m _ => (ih false _).2) hMM
        | false =>
            rw [mmv_succ_min g d p hML]
            constructor
            · exact le_foldl_min _ _ _ _ (fun m _ => (ih true _).1) hMM
            · exact foldl_min_le _ _ _

/-! ### Range and fail-hard bounds of the pure alpha-beta search -/

theorem abPure_succ_empty (g : GameAlgo Pos Move) (d : Nat)
    (maximizingPlayer : Bool) (alpha beta : Int) (p : Pos)
    (hML : moveListOf g maximizingPlayer p = []) :
    abPure g (d + 1) maximizingPlayer alpha beta p = ⟨g.evalFunc p, none⟩ := by
  conv_lhs => rw [abPure]
  rw [hML]

theorem abPure_succ_max (g : GameAlgo Pos Move) (d : Nat) (alpha beta : Int)
    (p : Pos) (m0 : Move) (ms : List Move)
    (hML : moveListOf g true p = m0 :: ms) :
    abPure g (d + 1) true alpha beta p =
      abPureMaxLoop (fun a b q => abPure g d false a b q) g.maximizerMoveFunc p
        (m0 :: ms) ⟨g.MIN_EVAL, some m0⟩ alpha beta := by
  conv_lhs => rw [abPure]
  rw [hML]
  rfl

theorem abPure_succ_min (g : GameAlgo Pos Move) (d : Nat) (alpha beta : Int)
    (p : Pos) (m0 : Move) (ms : List Move)
    (hML : moveListOf g false p = m0 :: ms) :
    abPure g (d + 1) false alpha beta p =
      abPureMinLoop (fun a b q => abPure g d true a b q) g.minimizerMoveFunc p
        (m0 :: ms) ⟨g.MAX_EVAL, some m0⟩ alpha beta := by
  conv_lhs => rw [abPure]
  rw [hML]
  rfl

theorem abPureMaxLoop_range (child : Int → Int → Pos → MMResult Move)
    (applyF : Pos → Move → Pos) (p : Pos) (MIN MAX : Int)
    (hchild : ∀ a b m, b ≤ MAX →
      MIN ≤ (child a b (applyF p m)).eval ∧ (child a b (applyF p m)).eval ≤ MAX) :
    ∀ (ms : List Move) (best : MMResult Move) (alpha beta : Int),
      beta ≤ MAX → MIN ≤ best.eval → best.eval ≤ MAX →
      MIN ≤ (abPureMaxLoop child applyF p ms best alpha beta).eval ∧
      (abPureMaxLoop child applyF p ms best alpha beta).eval ≤ MAX := by
  intro ms
  induction ms with
  | nil => intro best alpha beta _ h1 h2; exact ⟨h1, h2⟩
  | cons mv rest ih =>
      intro best alpha beta hβ h1 h2
      simp only [abPureMaxLoop]
      have hc := hchild alpha beta mv hβ
      set B := if (child alpha beta (applyF p mv)).eval > best.eval then
        (⟨(child alpha beta (applyF p mv)).eval, some mv⟩ : MMResult Move)
        else best with hBdef
      have hBr : MIN ≤ B.eval ∧ B.eval ≤ MAX := by
        rw [hBdef]
        split
        · exact hc
        · exact ⟨h1, h2⟩
      repeat' split
      all_goals first
        | exact hBr
        | exact ih _ _ _ hβ hBr.1 hBr.2

theorem abPureMinLoop_range (child : Int → Int → Pos → MMResult Move)
    (applyF : Pos → Move → Pos) (p : Pos) (MIN MAX : Int)
    (hchild : ∀ a b m, b ≤ MAX →
      MIN ≤ (child a b (applyF p m)).eval ∧ (child a b (applyF p m)).eval ≤ MAX) :
    ∀ (ms : List Move) (best : MMResult Move) (alpha beta : Int),
      beta ≤ MAX → MIN ≤ best.eval → best.eval ≤ MAX →
      MIN ≤ (abPureMinLoop child applyF p ms best alpha beta).eval ∧
      (abPureMinLoop child applyF p ms best alpha beta).eval ≤ MAX := by
  intro ms
  induction ms with
  | nil => intro best alpha beta _ h1 h2; exact ⟨h1, h2⟩
  | cons mv rest ih =>
      intro best alpha beta hβ h1 h2
      simp only [abPureMinLoop]
      have hc := hchild alpha beta mv hβ
      set B1 := if (child alpha beta (applyF p mv)).eval < best.eval then
        (⟨(child alpha beta (applyF p mv)).eval, some mv⟩ : MMResult Move)
        else best with hB1def
      have hB1r : MIN ≤ B1.eval ∧ B1.eval ≤ MAX := by
        rw [hB1def]
        split
        · exact hc
        · exact ⟨h1, h2⟩
      set B2 := if B1.eval < beta then
        (⟨(child alpha beta (applyF p mv)).eval, B1.bestMove⟩ : MMResult Move)
        else B1 with hB2def
      have hB2r : MIN ≤ B2.eval ∧ B2.eval ≤ MAX := by
        rw [hB2def]
        split
        · exact hc
        · exact hB1r
      repeat' split
      all_goals first
        | exact hB2r
        | exact ih _ _ _ hc.2 hB2r.1 hB2r.2
        | exact ih _ _ _ hβ hB2r.1 hB2r.2

/-- With in-range evaluations, the pure alpha-beta score stays in range
whenever `beta` does. -/
theorem abPure_range (g : GameAlgo Pos Move)
    (hEval : ∀ p, g.MIN_EVAL ≤ g.evalFunc p ∧ g.evalFunc p ≤ g.MAX_EVAL) :
    ∀ (d : Nat) (maximizingPlayer : Bool) (alpha beta : Int) (p : Pos),
      beta ≤ g.MAX_EVAL →
      g.MIN_EVAL ≤ (abPure g d maximizingPlayer alpha beta p).eval ∧
      (abPure g d maximizingPlayer alpha beta p).eval ≤ g.MAX_EVAL := by
  intro d
  induction d with
  | zero => intro maximizingPlayer alpha beta p _; exact hEval p
  | succ d ih =>
      intro maximizingPlayer alpha beta p hβ
      have hMM : g.MIN_EVAL ≤ g.MAX_EVAL := le_trans (hEval p).1 (hEval p).2
      rcases hML : moveListOf g maximizingPlayer p with _ | ⟨m0, ms⟩
      · rw [abPure_succ_empty g d maximizingPlayer alpha beta p hML]
        exact hEval p
      · cases maximizingPlayer with
        | true =>
            rw [abPure_succ_max g d alpha beta p m0 ms hML]
            exact abPureMaxLoop_range _ _ _ _ _
              (fun a b m hb => ih false a b _ hb) _ _ _ _ hβ (le_refl _) hMM
        | false =>
            rw [abPure_succ_min g d alpha beta p m0 ms hML]
            exact abPureMinLoop_range _ _ _ _ _
              (fun a b m hb => ih true a b _ hb) _ _ _ _ hβ hMM (le_refl _)

/-- Fail-hard bounds for the maximizer alpha-beta loop: the result never
drops below the seed, stays within `max alpha (plain value)`, at least
reaches `min beta (plain value)`, and is exactly the plain minimax fold
whenever that value lies strictly inside the window. -/
theorem abPureMaxLoop_failhard (child : Int → Int → Pos → MMResult Move)
    (applyF : Pos → Move → Pos) (p : Pos) (MAX : Int) (vf : Move → Int)
    (hA : ∀ a b m, b ≤ MAX → a < b → (child a b (applyF p m)).eval ≤ max a (vf m))
    (hB : ∀ a b m, b ≤ MAX → a < b → min b (vf m) ≤ (child a b (applyF p m)).eval)
    (hC : ∀ a b m, b ≤ MAX → a < b → a < vf m → vf m < b →
      (child a b (applyF p m)).eval = vf m) :
    ∀ (ms : List Move) (best : MMResult Move) (alpha beta : Int),
      beta ≤ MAX → alpha < beta →
      best.eval ≤ (abPureMaxLoop child applyF p ms best alpha beta).eval ∧
      (abPureMaxLoop child applyF p ms best alpha beta).eval ≤
        max alpha (ms.foldl (fun a m => max a (vf m)) best.eval) ∧
      min beta (ms.foldl (fun a m => max a (vf m)) best.eval) ≤
        (abPureMaxLoop child applyF p ms best alpha beta).eval ∧
      (alpha < ms.foldl (fun a m => max a (vf m)) best.eval →
        ms.foldl (fun a m => max a (vf m)) best.eval < beta →
        (abPureMaxLoop child applyF p ms best alpha beta).eval =
          ms.foldl (fun a m => max a (vf m)) best.eval) := by
  intro ms
  induction ms with
  | nil =>
      intro best alpha beta hβ hαβ
      exact ⟨le_refl _, le_max_right _ _, min_le_right _ _, fun _ _ => rfl⟩
  | cons mv rest ih =>
      intro best alpha beta hβ hαβ
      simp only [abPureMaxLoop, List.foldl_cons]
      have hcA := hA alpha beta mv hβ hαβ
      have hcB := hB alpha beta mv hβ hαβ
      have hCgen := hC alpha beta mv hβ hαβ
      set c := child alpha beta (applyF p mv) with hcdef
      set B := if c.eval > best.eval then (⟨c.eval, some mv⟩ : MMResult Move)
        else best with hBdef
      have hBe : B.eval = max best.eval c.eval := by
        rw [hBdef]
        rcases le_or_lt c.eval best.eval with h | h
        · rw [if_neg (by omega)]; omega
        · rw [if_pos (by omega)]
          show c.eval = max best.eval c.eval
          omega
      set A' := if B.eval > alpha then B.eval else alpha with hAPdef
      have hAPe : A' = max alpha B.eval := by
        rw [hAPdef]
        rcases le_or_lt B.eval alpha with h | h
        · rw [if_neg (by omega)]; omega
        · rw [if_pos (by omega)]; omega
      have hFb : best.eval ≤ rest.foldl (fun a m => max a (vf m)) best.eval :=
        le_foldl_max _ _ _
      rw [foldl_max_pull]
      have hFB : rest.foldl (fun a m => max a (vf m)) B.eval =
          max (rest.foldl (fun a m => max a (vf m)) best.eval) c.eval := by
        rw [hBe, foldl_max_pull]
      by_cases hco : beta ≤ A'
      · rw [if_pos hco]
        refine ⟨by omega, by omega, by omega, ?_⟩
        intro hlo hhi
        omega
      · rw [if_neg hco]
        have hIH := ih B A' beta hβ (by omega)
        rw [hFB] at hIH
        refine ⟨by omega, by omega, by omega, ?_⟩
        intro hlo hhi
        rcases le_or_lt (vf mv) alpha with hv | hv
        · by_cases hB2 : B.eval =
              max (rest.foldl (fun a m => max a (vf m)) best.eval) (vf mv)
          · have h1 := hIH.1
            have h2 := hIH.2.1
            omega
          · have h4 := hIH.2.2.2 (by omega) (by omega)
            omega
        · have hcC := hCgen hv (by omega)
          by_cases hB2 : B.eval =
              max (rest.foldl (fun a m => max a (vf m)) best.eval) (vf mv)
          · have h1 := hIH.1
            have h2 := hIH.2.1
            omega
          · have h4 := hIH.2.2.2 (by omega) (by omega)
            omega

/-- Fail-hard bounds for the minimizer alpha-beta loop, covering the
source's beta-tightening assignment: while `beta` starts no above the seed,
the assignment only ever re-writes the score the first comparison already
chose, so the loop computes the fail-hard minimum. -/
theorem abPureMinLoop_failhard (child : Int → Int → Pos → MMResult Move)
    (applyF : Pos → Move → Pos) (p : Pos) (MAX : Int) (vf : Move → Int)
    (hR : ∀ a b m, b ≤ MAX → (child a b (applyF p m)).eval ≤ MAX)
    (hA : ∀ a b m, b ≤ MAX → a < b → (child a b (applyF p m)).eval ≤ max a (vf m))
    (hB : ∀ a b m, b ≤ MAX → a < b → min b (vf m) ≤ (child a b (applyF p m)).eval)
    (hC : ∀ a b m, b ≤ MAX → a < b → a < vf m → vf m < b →
      (child a b (applyF p m)).eval = vf m) :
    ∀ (ms : List Move) (best : MMResult Move) (alpha beta : Int),
      beta ≤ MAX → alpha < beta → beta ≤ best.eval →
      (abPureMinLoop child applyF p ms best alpha beta).eval ≤ best.eval ∧
      min beta (ms.foldl (fun a m => min a (vf m)) best.eval) ≤
        (abPureMinLoop child applyF p ms best alpha beta).eval ∧
      (abPureMinLoop child applyF p ms best alpha beta).eval ≤
        max alpha (ms.foldl (fun a m => min a (vf m)) best.eval) ∧
      (alpha < ms.foldl (fun a m => min a (vf m)) best.eval →
        ms.foldl (fun a m => min a (vf m)) best.eval < beta →
        (abPureMinLoop child applyF p ms best alpha beta).eval =
          ms.foldl (fun a m => min a (vf m)) best.eval) := by
  intro ms
  induction ms with
  | nil =>
      intro best alpha beta hβ hαβ hβb
      exact ⟨le_refl _, min_le_right _ _, le_max_right _ _, fun _ _ => rfl⟩
  | cons mv rest ih =>
      intro best alpha beta hβ hαβ hβb
      simp only [abPureMinLoop, List.foldl_cons]
      have hcA := hA alpha beta mv hβ hαβ
      have hcB := hB alpha beta mv hβ hαβ
      have hcR := hR alpha beta mv hβ
      have hCgen := hC alpha beta mv hβ hαβ
      set c := child alpha beta (applyF p mv) with hcdef
      set B1 := if c.eval < best.eval then (⟨c.eval, some mv⟩ : MMResult Move)
        else best with hB1def
      have hB1e : B1.eval = min best.eval c.eval := by
        rw [hB1def]
        rcases le_or_lt best.eval c.eval with h | h
        · rw [if_neg (by omega)]; omega
        · rw [if_pos (by omega)]
          show c.eval = min best.eval c.eval
          omega
      set B2 := if B1.eval < beta then (⟨c.eval, B1.bestMove⟩ : MMResult Move)
        else B1 with hB2def
      have hB2e : B2.eval = min best.eval c.eval := by
        rw [hB2def]
        rcases lt_or_le B1.eval beta with h | h
        · rw [if_pos h]
          show c.eval = min best.eval c.eval
          omega
        · rw [if_neg (by omega)]; omega
      set beta' := if B1.eval < beta then c.eval else beta with hbPdef
      have hbPe : beta' = min beta B2.eval := by
        rw [hbPdef]
        rcases lt_or_le B1.eval beta with h | h
        · rw [if_pos h]; omega
        · rw [if_neg (by omega)]; omega
      have hFb : rest.foldl (fun a m => min a (vf m)) best.eval ≤ best.eval :=
        foldl_min_le _ _ _
      rw [foldl_min_pull]
      have hFB2 : rest.foldl (fun a m => min a (vf m)) B2.eval =
          min (rest.foldl (fun a m => min a (vf m)) best.eval) c.eval := by
        rw [hB2e, foldl_min_pull]
      by_cases hco : beta' ≤ alpha
      · rw [if_pos hco]
        refine ⟨by omega, by omega, by omega, ?_⟩
        intro hlo hhi
        omega
      · rw [if_neg hco]
        have hIH := ih B2 alpha beta' (by omega) (by omega) (by omega)
        rw [hFB2] at hIH
        refine ⟨by omega, by omega, by omega, ?_⟩
        intro hlo hhi
        rcases le_or_lt beta (vf mv) with hv | hv
        · by_cases hB2V : B2.eval =
              min (rest.foldl (fun a m => min a (vf m)) best.eval) (vf mv)
          · have h1 := hIH.1
            have h2 := hIH.2.1
            omega
          · have h4 := hIH.2.2.2 (by omega) (by omega)
            omega
        · have hcC := hCgen (by omega) hv
          by_cases hB2V : B2.eval =
              min (rest.foldl (fun a m => min a (vf m)) best.eval) (vf mv)
          · have h1 := hIH.1
            have h2 := hIH.2.1
            omega
          · have h4 := hIH.2.2.2 (by omega) (by omega)
            omega

/-- Fail-hard correctness of the pure alpha-beta search against the plain
minimax value: within the window the scores agree exactly. -/
theorem abPure_failhard (g : GameAlgo Pos Move)
    (hEval : ∀ p, g.MIN_EVAL ≤ g.evalFunc p ∧ g.evalFunc p ≤ g.MAX_EVAL) :
    ∀ (d : Nat) (maximizingPlayer : Bool) (alpha beta : Int) (p : Pos),
      beta ≤ g.MAX_EVAL → alpha < beta →
      (abPure g d maximizingPlayer alpha beta p).eval ≤
        max alpha (mmv g d maximizingPlayer p) ∧
      min beta (mmv g d maximizingPlayer p) ≤
        (abPure g d maximizingPlayer alpha beta p).eval ∧
      (alpha < mmv g d maximizingPlayer p → mmv g d maximizingPlayer p < beta →
        (abPure g d maximizingPlayer alpha beta p).eval =
          mmv g d maximizingPlayer p) := by
  intro d
  induction d with
  | zero =>
      intro maximizingPlayer alpha beta p hβ hαβ
      exact ⟨le_max_right _ _, min_le_right _ _, fun _ _ => rfl⟩
  | succ d ih =>
      intro maximizingPlayer alpha beta p hβ hαβ
      rcases hML : moveListOf g maximizingPlayer p with _ | ⟨m0, ms⟩
      · rw [abPure_succ_empty g d maximizingPlayer alpha beta p hML]
        have hv : mmv g (d + 1) maximizingPlayer p = g.evalFunc p := by
          unfold mmv
          rw [mmPure_succ_empty g d maximizingPlayer p hML]
        rw [hv]
        exact ⟨le_max_right _ _, min_le_right _ _, fun _ _ => rfl⟩
      · cases maximizingPlayer with
        | true =>
            rw [abPure_succ_max g d alpha beta p m0 ms hML,
              mmv_succ_max g d p (by rw [hML]; simp), hML]
            have hloop := abPureMaxLoop_failhard
              (fun a b q => abPure g d false a b q) g.maximizerMoveFunc p
              g.MAX_EVAL (fun m => mmv g d false (g.maximizerMoveFunc p m))
              (fun a b m hb hab => (ih false a b _ hb hab).1)
              (fun a b m hb hab => (ih false a b _ hb hab).2.1)
              (fun a b m hb hab h1 h2 => (ih false a b _ hb hab).2.2 h1 h2)
              (m0 :: ms) ⟨g.MIN_EVAL, some m0⟩ alpha beta hβ hαβ
            exact ⟨hloop.2.1, hloop.2.2.1, hloop.2.2.2⟩
        | false =>
            rw [abPure_succ_min g d alpha beta p m0 ms hML,
              mmv_succ_min g d p (by rw [hML]; simp), hML]
            have hloop := abPureMinLoop_failhard
              (fun a b q => abPure g d true a b q) g.minimizerMoveFunc p
              g.MAX_EVAL (fun m => mmv g d true (g.minimizerMoveFunc p m))
              (fun a b m hb => (abPure_range g hEval d true a b _ hb).2)
              (fun a b m hb hab => (ih true a b _ hb hab).1)
              (fun a b m hb hab => (ih true a b _ hb hab).2.1)
              (fun a b m hb hab h1 h2 => (ih true a b _ hb hab).2.2 h1 h2)
              (m0 :: ms) ⟨g.MAX_EVAL, some m0⟩ alpha beta hβ hαβ hβ
            exact ⟨hloop.2.2.1, hloop.2.1, hloop.2.2.2⟩

/-- Claim C1: for a deterministic adapter honoring the undo-inverts-apply
contract whose evaluation stays within `[MIN_EVAL, MAX_EVAL]`, and with no
cancellation requested, `minMaxAlphaBetaPruning` called with the engine's
bounds as the initial window returns the same score as plain `minimax`, at
every depth and for either perspective. -/
theorem minimax_alphaBetaPruning_score_equiv (g : GameAlgo Pos Move)
    (hEval : ∀ p, g.MIN_EVAL ≤ g.evalFunc p ∧ g.evalFunc p ≤ g.MAX_EVAL)
    (hInvMax : ∀ p m, g.maximizerUndoMoveFunc (g.maximizerMoveFunc p m) m = p)
    (hInvMin : ∀ p m, g.minimizerUndoMoveFunc (g.minimizerMoveFunc p m) m = p)
    (intr : Nat → Bool) (hIntr : ∀ k, intr k = false)
    (depth : Nat) (maximizingPlayer : Bool) (s : SearchState Pos Move) :
    (minMaxAlphaBetaPruning g intr depth maximizingPlayer g.MIN_EVAL g.MAX_EVAL
        s).1.eval =
      (minimax g depth maximizingPlayer s).1.eval := by
  rw [(alphaBeta_pure_bridge g intr hIntr hInvMax hInvMin depth maximizingPlayer
    g.MIN_EVAL g.MAX_EVAL s).1,
    (minimax_pure_bridge g hInvMax hInvMin depth maximizingPlayer s).1]
  have hvr := mmv_range g hEval depth maximizingPlayer s.pos
  unfold mmv at hvr
  rcases lt_or_le g.MIN_EVAL g.MAX_EVAL with hMM | hMM
  · have hfh := abPure_failhard g hEval depth maximizingPlayer g.MIN_EVAL
      g.MAX_EVAL s.pos (le_refl _) hMM
    unfold mmv at hfh
    omega
  · have hr := abPure_range g hEval depth maximizingPlayer g.MIN_EVAL g.MAX_EVAL
      s.pos (le_refl _)
    omega

/-- Witness for C1 on the Scenario A adapter at depth 2 (both scores are 3). -/
theorem minimax_alphaBetaPruning_score_equiv_witness :
    (minMaxAlphaBetaPruning scnA noIntr 2 true scnA.MIN_EVAL scnA.MAX_EVAL
        (st0 [])).1.eval =
      (minimax scnA 2 true (st0 [])).1.eval :=
  minimax_alphaBetaPruning_score_equiv scnA
    (fun p => by
      constructor <;> (simp only [scnA]; split_ifs <;> decide))
    (fun p m => by simp [scnA])
    (fun p m => by simp [scnA])
    noIntr (fun _ => rfl) 2 true (st0 [])

/-! ### Tie-break: the first strictly-improving move wins -/

/-- The maximizer fold adopts precisely the first move achieving the fold's
final value, provided that value strictly beats the seed; otherwise the
seed's move survives. -/
theorem foldl_mmStepMax_bestMove (f : Move → Int) :
    ∀ (ms : List Move) (b : MMResult Move),
      (ms.foldl (mmStepMax f) b).bestMove =
        if ms.foldl (fun a m => max a (f m)) b.eval > b.eval then
          ms.find? (fun m => decide (f m = ms.foldl (fun a m => max a (f m)) b.eval))
        else b.bestMove := by
  intro ms
  induction ms with
  | nil =>
      intro b
      rw [if_neg (by simp)]
      rfl
  | cons mv rest ih =>
      intro b
      simp only [List.foldl_cons]
      rw [ih]
      have hstep : (mmStepMax f b mv).eval = max b.eval (f mv) := by
        unfold mmStepMax
        rcases le_or_lt (f mv) b.eval with h | h
        · rw [if_neg (by omega)]; omega
        · rw [if_pos (by omega)]
          show f mv = max b.eval (f mv)
          omega
      have hVmono : max b.eval (f mv) ≤
          rest.foldl (fun a m => max a (f m)) (max b.eval (f mv)) :=
        le_foldl_max _ _ _
      rcases le_or_lt (f mv) b.eval with hf | hf
      · have hseed : max b.eval (f mv) = b.eval := by omega
        have hb' : mmStepMax f b mv = b := by
          unfold mmStepMax
          rw [if_neg (by omega)]
        rw [hb']
        simp only [hseed]
        by_cases hV : rest.foldl (fun a m => max a (f m)) b.eval > b.eval
        · rw [if_pos hV, if_pos hV, List.find?_cons_of_neg]
          simp only [decide_eq_true_eq]
          omega
        · rw [if_neg hV, if_neg hV]
      · have hb' : mmStepMax f b mv = ⟨f mv, some mv⟩ := by
          unfold mmStepMax
          rw [if_pos (by omega)]
        have hseed : max b.eval (f mv) = f mv := by omega
        rw [hb']
        simp only [hseed]
        dsimp only
        have hcondV : rest.foldl (fun a m => max a (f m)) (f mv) > b.eval := by
          have := le_foldl_max f rest (f mv)
          omega
        rw [if_pos hcondV]
        by_cases hV : rest.foldl (fun a m => max a (f m)) (f mv) > f mv
        · rw [if_pos hV, List.find?_cons_of_neg]
          simp only [decide_eq_true_eq]
          omega
        · rw [if_neg hV, List.find?_cons_of_pos]
          simp only [decide_eq_true_eq]
          have := le_foldl_max f rest (f mv)
          omega

/-- The minimizer fold adopts precisely the first move achieving the fold's
final value, provided that value is strictly below the seed. -/
theorem foldl_mmStepMin_bestMove (f : Move → Int) :
    ∀ (ms : List Move) (b : MMResult Move),
      (ms.foldl (mmStepMin f) b).bestMove =
        if ms.foldl (fun a m => min a (f m)) b.eval < b.eval then
          ms.find? (fun m => decide (f m = ms.foldl (fun a m => min a (f m)) b.eval))
        else b.bestMove := by
  intro ms
  induction ms with
  | nil =>
      intro b
      rw [if_neg (by simp)]
      rfl
  | cons mv rest ih =>
      intro b
      simp only [List.foldl_cons]
      rw [ih]
      have hstep : (mmStepMin f b mv).eval = min b.eval (f mv) := by
        unfold mmStepMin
        rcases le_or_lt b.eval (f mv) with h | h
        · rw [if_neg (by omega)]; omega
        · rw [if_pos (by omega)]
          show f mv = min b.eval (f mv)
          omega
      rcases le_or_lt b.eval (f mv) with hf | hf
      · have hseed : min b.eval (f mv) = b.eval := by omega
        have hb' : mmStepMin f b mv = b := by
          unfold mmStepMin
          rw [if_neg (by omega)]
        rw [hb']
        simp only [hseed]
        by_cases hV : rest.foldl (fun a m => min a (f m)) b.eval < b.eval
        · rw [if_pos hV, if_pos hV, List.find?_cons_of_neg]
          simp only [decide_eq_true_eq]
          omega
        · rw [if_neg hV, if_neg hV]
      · have hb' : mmStepMin f b mv = ⟨f mv, some mv⟩ := by
          unfold mmStepMin
          rw [if_pos (by omega)]
        have hseed : min b.eval (f mv) = f mv := by omega
        rw [hb']
        simp only [hseed]
        dsimp only
        have hcondV : rest.foldl (fun a m => min a (f m)) (f mv) < b.eval := by
          have := foldl_min_le f rest (f mv)
          omega
        rw [if_pos hcondV]
        by_cases hV : rest.foldl (fun a m => min a (f m)) (f mv) < f mv
        · rw [if_pos hV, List.find?_cons_of_neg]
          simp only [decide_eq_true_eq]
          omega
        · rw [if_neg hV, List.find?_cons_of_pos]
          simp only [decide_eq_true_eq]
          have := foldl_min_le f rest (f mv)
          omega

/-- Claim C5, counterexample: with all evaluations equal to `MIN_EVAL`
(in range), the maximizer node's children tie for the best value, yet
`minimax` returns `bestMove = None` — not the first move achieving the
best value — because adoption requires a strict improvement over the
`MIN_EVAL` seed. -/
theorem minimax_tiebreak_counterexample :
    (minimax allMinGame 1 true (st0 [])).1.bestMove = none ∧
    moveListOf allMinGame true [] = [0, 1] ∧
    mmv allMinGame 0 false (allMinGame.maximizerMoveFunc [] 0) = -100 ∧
    mmv allMinGame 0 false (allMinGame.maximizerMoveFunc [] 1) = -100 := by
  decide

/-- Claim C5 as amended: plain minimax breaks ties by enumeration order
provided the best child value strictly beats the seed (`MIN_EVAL` for the
maximizer, `MAX_EVAL` for the minimizer): the returned best move is then
the first enumerated move achieving that value.  When no child strictly
beats the seed the returned best move is `None` instead.  On the Scenario A
tree the result is score 3 with best move `A = 0`. -/
theorem minimax_tiebreak_first (g : GameAlgo Pos Move)
    (hInvMax : ∀ p m, g.maximizerUndoMoveFunc (g.maximizerMoveFunc p m) m = p)
    (hInvMin : ∀ p m, g.minimizerUndoMoveFunc (g.minimizerMoveFunc p m) m = p)
    (d : Nat) (s : SearchState Pos Move) :
    (moveListOf g true s.pos ≠ [] →
      g.MIN_EVAL <
        (moveListOf g true s.pos).foldl
          (fun a m => max a (mmv g d false (g.maximizerMoveFunc s.pos m)))
          g.MIN_EVAL →
      (minimax g (d + 1) true s).1.bestMove =
        (moveListOf g true s.pos).find?
          (fun m => decide (mmv g d false (g.maximizerMoveFunc s.pos m) =
            (moveListOf g true s.pos).foldl
              (fun a m => max a (mmv g d false (g.maximizerMoveFunc s.pos m)))
              g.MIN_EVAL))) ∧
    (moveListOf g false s.pos ≠ [] →
      (moveListOf g false s.pos).foldl
          (fun a m => min a (mmv g d true (g.minimizerMoveFunc s.pos m)))
          g.MAX_EVAL < g.MAX_EVAL →
      (minimax g (d + 1) false s).1.bestMove =
        (moveListOf g false s.pos).find?
          (fun m => decide (mmv g d true (g.minimizerMoveFunc s.pos m) =
            (moveListOf g false s.pos).foldl
              (fun a m => min a (mmv g d true (g.minimizerMoveFunc s.pos m)))
              g.MAX_EVAL))) ∧
    (minimax scnA 2 true (st0 [])).1 = ⟨3, some 0⟩ := by
  refine ⟨?_, ?_, by decide⟩
  · intro hL hV
    have hV' : g.MIN_EVAL <
        (moveListOf g true s.pos).foldl
          (fun a m => max a ((mmPure g d false (g.maximizerMoveFunc s.pos m)).eval))
          g.MIN_EVAL := by
      simpa only [mmv] using hV
    rw [(minimax_pure_bridge g hInvMax hInvMin (d + 1) true s).1,
      mmPure_succ_max g d s.pos hL, foldl_mmStepMax_bestMove]
    simp only [mmv]
    dsimp only
    rw [if_pos hV']
  · intro hL hV
    have hV' :
        (moveListOf g false s.pos).foldl
          (fun a m => min a ((mmPure g d true (g.minimizerMoveFunc s.pos m)).eval))
          g.MAX_EVAL < g.MAX_EVAL := by
      simpa only [mmv] using hV
    rw [(minimax_pure_bridge g hInvMax hInvMin (d + 1) false s).1,
      mmPure_succ_min g d s.pos hL, foldl_mmStepMin_bestMove]
    simp only [mmv]
    dsimp only
    rw [if_pos hV']

/-- Witness for C5 (amended) on the Scenario A adapter: move `A = 0` is the
first root move achieving the best value 3. -/
theorem minimax_tiebreak_first_witness :
    (minimax scnA 2 true (st0 [])).1.bestMove =
      (moveListOf scnA true []).find?
        (fun m => decide (mmv scnA 1 false (scnA.maximizerMoveFunc [] m) =
          (moveListOf scnA true []).foldl
            (fun a m => max a (mmv scnA 1 false (scnA.maximizerMoveFunc [] m)))
            scnA.MIN_EVAL)) :=
  (minimax_tiebreak_first scnA (fun p m => by simp [scnA])
    (fun p m => by simp [scnA]) 1 (st0 [])).1 (by decide) (by decide)

/-! ### History fidelity of the pure history variant -/

theorem abhPure_succ_empty (g : GameAlgo Pos Move) (d : Nat)
    (maximizingPlayer : Bool) (alpha beta : Int) (hist : List Move) (p : Pos)
    (hML : moveListOf g maximizingPlayer p = []) :
    abhPure g (d + 1) maximizingPlayer alpha beta hist p =
      ⟨g.evalFunc p, none, hist⟩ := by
  conv_lhs => rw [abhPure]
  rw [hML]

theorem abhPure_succ_max (g : GameAlgo Pos Move) (d : Nat) (alpha beta : Int)
    (hist : List Move) (p : Pos) (m0 : Move) (ms : List Move)
    (hML : moveListOf g true p = m0 :: ms) :
    abhPure g (d + 1) true alpha beta hist p =
      abhPureMaxLoop (fun a b h q => abhPure g d false a b h q)
        g.maximizerMoveFunc hist p (m0 :: ms)
        ⟨g.MIN_EVAL - 1, some m0, hist⟩ alpha beta := by
  conv_lhs => rw [abhPure]
  rw [hML]
  rfl

theorem abhPure_succ_min (g : GameAlgo Pos Move) (d : Nat) (alpha beta : Int)
    (hist : List Move) (p : Pos) (m0 : Move) (ms : List Move)
    (hML : moveListOf g false p = m0 :: ms) :
    abhPure g (d + 1) false alpha beta hist p =
      abhPureMinLoop (fun a b h q => abhPure g d true a b h q)
        g.minimizerMoveFunc hist p (m0 :: ms)
        ⟨g.MAX_EVAL + 1, some m0, hist⟩ alpha beta := by
  conv_lhs => rw [abhPure]
  rw [hML]
  rfl

/-- The maximizer loop of the pure history variant turns any seed — a
well-formed one or the out-of-range sentinel — into a well-formed result:
in range, with a history extending the node's path and replaying to a
position whose evaluation is the returned score. -/
theorem abhPureMaxLoop_spec (g : GameAlgo Pos Move)
    (child : Int → Int → List Move → Pos → ABHResult Move)
    (hist : List Move) (p : Pos)
    (hchildR : ∀ a b h q, b ≤ g.MAX_EVAL →
      g.MIN_EVAL ≤ (child a b h q).eval ∧ (child a b h q).eval ≤ g.MAX_EVAL)
    (hchildH : ∀ a b h m, b ≤ g.MAX_EVAL →
      ∃ tl, (child a b h (g.maximizerMoveFunc p m)).history = h ++ tl ∧
        g.evalFunc (replayFrom g (g.maximizerMoveFunc p m) false tl) =
          (child a b h (g.maximizerMoveFunc p m)).eval) :
    ∀ (ms : List Move) (best : ABHResult Move) (alpha beta : Int),
      beta ≤ g.MAX_EVAL →
      (GoodRes g hist p true best →
        GoodRes g hist p true
          (abhPureMaxLoop child g.maximizerMoveFunc hist p ms best alpha beta)) ∧
      (best.eval < g.MIN_EVAL → ms ≠ [] →
        GoodRes g hist p true
          (abhPureMaxLoop child g.maximizerMoveFunc hist p ms best alpha beta)) := by
  intro ms
  induction ms with
  | nil =>
      intro best alpha beta _
      exact ⟨fun h => h, fun _ hne => absurd rfl hne⟩
  | cons mv rest ih =>
      intro best alpha beta hβ
      simp only [abhPureMaxLoop]
      have hcr := hchildR alpha beta (hist ++ [mv]) (g.maximizerMoveFunc p mv) hβ
      obtain ⟨tlc, htlc, hrep⟩ := hchildH alpha beta (hist ++ [mv]) mv hβ
      set c := child alpha beta (hist ++ [mv]) (g.maximizerMoveFunc p mv) with hcdef
      have hAdGood : GoodRes g hist p true
          (⟨c.eval, some mv, c.history⟩ : ABHResult Move) := by
        refine ⟨⟨hcr.1, hcr.2⟩, ⟨mv :: tlc, by simp, ?_, ?_⟩⟩
        · show c.history = hist ++ (mv :: tlc)
          rw [htlc]
          simp
        · show g.evalFunc (replayFrom g p true (mv :: tlc)) = c.eval
          exact hrep
      set B := if c.eval > best.eval then
        (⟨c.eval, some mv, c.history⟩ : ABHResult Move) else best with hBdef
      set A' := if B.eval > alpha then B.eval else alpha with hAPdef
      constructor
      · intro hGood
        have hBGood : GoodRes g hist p true B := by
          rw [hBdef]
          split
          · exact hAdGood
          · exact hGood
        split
        · exact hBGood
        · exact (ih B A' beta hβ).1 hBGood
      · intro hsent hne
        have hBeq : B = ⟨c.eval, some mv, c.history⟩ := by
          rw [hBdef, if_pos (by omega)]
        have hBGood : GoodRes g hist p true B := by
          rw [hBeq]; exact hAdGood
        split
        · exact hBGood
        · exact (ih B A' beta hβ).1 hBGood

/-- The minimizer loop of the pure history variant: as long as `beta` does
not exceed the seed's score, the beta-tightening branch never desynchronizes
score and history, and any seed — well-formed or the `MAX_EVAL + 1`
sentinel — yields a well-formed result. -/
theorem abhPureMinLoop_spec (g : GameAlgo Pos Move)
    (child : Int → Int → List Move → Pos → ABHResult Move)
    (hist : List Move) (p : Pos)
    (hchildR : ∀ a b h q, b ≤ g.MAX_EVAL →
      g.MIN_EVAL ≤ (child a b h q).eval ∧ (child a b h q).eval ≤ g.MAX_EVAL)
    (hchildH : ∀ a b h m, b ≤ g.MAX_EVAL →
      ∃ tl, (child a b h (g.minimizerMoveFunc p m)).history = h ++ tl ∧
        g.evalFunc (replayFrom g (g.minimizerMoveFunc p m) true tl) =
          (child a b h (g.minimizerMoveFunc p m)).eval) :
    ∀ (ms : List Move) (best : ABHResult Move) (alpha beta : Int),
      beta ≤ g.MAX_EVAL → beta ≤ best.eval →
      (GoodRes g hist p false best →
        GoodRes g hist p false
          (abhPureMinLoop child g.minimizerMoveFunc hist p ms best alpha beta)) ∧
      (g.MAX_EVAL < best.eval → ms ≠ [] →
        GoodRes g hist p false
          (abhPureMinLoop child g.minimizerMoveFunc hist p ms best alpha beta)) := by
  intro ms
  induction ms with
  | nil =>
      intro best alpha beta _ _
      exact ⟨fun h => h, fun _ hne => absurd rfl hne⟩
  | cons mv rest ih =>
      intro best alpha beta hβ hβb
      simp only [abhPureMinLoop]
      have hcr := hchildR alpha beta (hist ++ [mv]) (g.minimizerMoveFunc p mv) hβ
      obtain ⟨tlc, htlc, hrep⟩ := hchildH alpha beta (hist ++ [mv]) mv hβ
      set c := child alpha beta (hist ++ [mv]) (g.minimizerMoveFunc p mv) with hcdef
      have hAdGood : GoodRes g hist p false
          (⟨c.eval, some mv, c.history⟩ : ABHResult Move) := by
        refine ⟨⟨hcr.1, hcr.2⟩, ⟨mv :: tlc, by simp, ?_, ?_⟩⟩
        · show c.history = hist ++ (mv :: tlc)
          rw [htlc]
          simp
        · show g.evalFunc (replayFrom g p false (mv :: tlc)) = c.eval
          exact hrep
      set B1 := if c.eval < best.eval then
        (⟨c.eval, some mv, c.history⟩ : ABHResult Move) else best with hB1def
      set B2 := if B1.eval < beta then
        (⟨c.eval, B1.bestMove, B1.history⟩ : ABHResult Move) else B1 with hB2def
      set beta' := if B1.eval < beta then c.eval else beta with hbPdef
      constructor
      · intro hGood
        rcases lt_or_le c.eval best.eval with h1 | h1
        · have hB1eq : B1 = ⟨c.eval, some mv, c.history⟩ := by
            rw [hB1def, if_pos h1]
          have hB2eq : B2 = ⟨c.eval, some mv, c.history⟩ := by
            rw [hB2def, hB1eq]
            split <;> rfl
          have hbPMAX : beta' ≤ g.MAX_EVAL := by
            rw [hbPdef]
            split
            · exact hcr.2
            · exact hβ
          have hbPb : beta' ≤ B2.eval := by
            rw [hbPdef, hB1eq, hB2eq]
            show (if c.eval < beta then c.eval else beta) ≤ c.eval
            split <;> omega
          have hB2Good : GoodRes g hist p false B2 := by
            rw [hB2eq]; exact hAdGood
          split
          · exact hB2Good
          · exact (ih B2 alpha beta' hbPMAX hbPb).1 hB2Good
        · have hB1eq : B1 = best := by
            rw [hB1def, if_neg (by omega)]
          have hB2eq : B2 = best := by
            rw [hB2def, hB1eq, if_neg (by omega)]
          have hbPeq : beta' = beta := by
            rw [hbPdef, hB1eq, if_neg (by omega)]
          have hB2Good : GoodRes g hist p false B2 := by
            rw [hB2eq]; exact hGood
          split
          · exact hB2Good
          · refine (ih B2 alpha beta' ?_ ?_).1 hB2Good
            · rw [hbPeq]; exact hβ
            · rw [hbPeq, hB2eq]; exact hβb
      · intro hsent hne
        have h1 : c.eval < best.eval := by omega
        have hB1eq : B1 = ⟨c.eval, some mv, c.history⟩ := by
          rw [hB1def, if_pos h1]
        have hB2eq : B2 = ⟨c.eval, some mv, c.history⟩ := by
          rw [hB2def, hB1eq]
          split <;> rfl
        have hbPMAX : beta' ≤ g.MAX_EVAL := by
          rw [hbPdef]
          split
          · exact hcr.2
          · exact hβ
        have hbPb : beta' ≤ B2.eval := by
          rw [hbPdef, hB1eq, hB2eq]
          show (if c.eval < beta then c.eval else beta) ≤ c.eval
          split <;> omega
        have hB2Good : GoodRes g hist p false B2 := by
          rw [hB2eq]; exact hAdGood
        split
        · exact hB2Good
        · exact (ih B2 alpha beta' hbPMAX hbPb).1 hB2Good

/-- Specification of the pure history variant: the score is in range, the
returned history extends the node's incoming path, replaying the extension
from the node's position reaches a position evaluating to the score, and at
a non-terminal node the extension is non-empty. -/
theorem abhPure_spec (g : GameAlgo Pos Move)
    (hEval : ∀ p, g.MIN_EVAL ≤ g.evalFunc p ∧ g.evalFunc p ≤ g.MAX_EVAL) :
    ∀ (d : Nat) (maximizingPlayer : Bool) (alpha beta : Int) (hist : List Move)
      (p : Pos), beta ≤ g.MAX_EVAL →
      (g.MIN_EVAL ≤ (abhPure g d maximizingPlayer alpha beta hist p).eval ∧
        (abhPure g d maximizingPlayer alpha beta hist p).eval ≤ g.MAX_EVAL) ∧
      ∃ tl, (abhPure g d maximizingPlayer alpha beta hist p).history = hist ++ tl ∧
        g.evalFunc (replayFrom g p maximizingPlayer tl) =
          (abhPure g d maximizingPlayer alpha beta hist p).eval ∧
        (d ≠ 0 → moveListOf g maximizingPlayer p ≠ [] → tl ≠ []) := by
  intro d
  induction d with
  | zero =>
      intro maximizingPlayer alpha beta hist p _
      exact ⟨hEval p, [], by show hist = hist ++ []; simp, rfl, fun h => absurd rfl h⟩
  | succ d ih =>
      intro maximizingPlayer alpha beta hist p hβ
      rcases hML : moveListOf g maximizingPlayer p with _ | ⟨m0, ms⟩
      · rw [abhPure_succ_empty g d maximizingPlayer alpha beta hist p hML]
        exact ⟨hEval p, [], by show hist = hist ++ []; simp, rfl,
          fun _ hne => absurd rfl hne⟩
      · cases maximizingPlayer with
        | true =>
            rw [abhPure_succ_max g d alpha beta hist p m0 ms hML]
            have hloop := (abhPureMaxLoop_spec g
              (fun a b h q => abhPure g d false a b h q) hist p
              (fun a b h q hb => (ih false a b h q hb).1)
              (fun a b h m hb => by
                obtain ⟨tl, h1, h2, _⟩ := (ih false a b h (g.maximizerMoveFunc p m) hb).2
                exact ⟨tl, h1, h2⟩)
              (m0 :: ms) ⟨g.MIN_EVAL - 1, some m0, hist⟩ alpha beta hβ).2
              (by show g.MIN_EVAL - 1 < g.MIN_EVAL; omega) (by simp)
            obtain ⟨hr, tl, hne, htl, hrep⟩ := hloop
            exact ⟨hr, tl, htl, hrep, fun _ _ => hne⟩
        | false =>
            rw [abhPure_succ_min g d alpha beta hist p m0 ms hML]
            have hloop := (abhPureMinLoop_spec g
              (fun a b h q => abhPure g d true a b h q) hist p
              (fun a b h q hb => (ih true a b h q hb).1)
              (fun a b h m hb => by
                obtain ⟨tl, h1, h2, _⟩ := (ih true a b h (g.minimizerMoveFunc p m) hb).2
                exact ⟨tl, h1, h2⟩)
              (m0 :: ms) ⟨g.MAX_EVAL + 1, some m0, hist⟩ alpha beta hβ
              (by show beta ≤ g.MAX_EVAL + 1; omega)).2
              (by show g.MAX_EVAL < g.MAX_EVAL + 1; omega) (by simp)
            obtain ⟨hr, tl, hne, htl, hrep⟩ := hloop
            exact ⟨hr, tl, htl, hrep, fun _ _ => hne⟩

/-- Claim C8: for a deterministic adapter honoring the apply/undo inverse
contract with in-range evaluations, and an uncancelled call with the
engine's bounds, replaying the returned `KEY_HISTORY` moves from the root
position — alternating perspectives starting with the caller's — reaches a
position whose evaluation equals the returned `KEY_EVAL` score. -/
theorem history_replay_fidelity (g : GameAlgo Pos Move)
    (hEval : ∀ p, g.MIN_EVAL ≤ g.evalFunc p ∧ g.evalFunc p ≤ g.MAX_EVAL)
    (hInvMax : ∀ p m, g.maximizerUndoMoveFunc (g.maximizerMoveFunc p m) m = p)
    (hInvMin : ∀ p m, g.minimizerUndoMoveFunc (g.minimizerMoveFunc p m) m = p)
    (intr : Nat → Bool) (hIntr : ∀ k, intr k = false)
    (depth : Nat) (maximizingPlayer : Bool) (s : SearchState Pos Move) :
    g.evalFunc (replayFrom g s.pos maximizingPlayer
        (minMaxAlphaBetaPruningWithHistory g intr depth maximizingPlayer
          g.MIN_EVAL g.MAX_EVAL [] s).1.history) =
      (minMaxAlphaBetaPruningWithHistory g intr depth maximizingPlayer
        g.MIN_EVAL g.MAX_EVAL [] s).1.eval := by
  rw [(withHistory_pure_bridge g intr hIntr hInvMax hInvMin depth maximizingPlayer
    g.MIN_EVAL g.MAX_EVAL [] s).1]
  obtain ⟨hr, tl, htl, hrep, _⟩ := (abhPure_spec g hEval depth maximizingPlayer
    g.MIN_EVAL g.MAX_EVAL [] s.pos (le_refl _))
  rw [htl]
  simpa using hrep

/-- Witness for C8 on the Scenario A adapter at depth 2: the returned
history `[0, 0]` replays to the leaf evaluating to the returned score 3. -/
theorem history_replay_fidelity_witness :
    scnA.evalFunc (replayFrom scnA [] true
        (minMaxAlphaBetaPruningWithHistory scnA noIntr 2 true
          scnA.MIN_EVAL scnA.MAX_EVAL [] (st0 [])).1.history) =
      (minMaxAlphaBetaPruningWithHistory scnA noIntr 2 true
        scnA.MIN_EVAL scnA.MAX_EVAL [] (st0 [])).1.eval :=
  history_replay_fidelity scnA
    (fun p => by constructor <;> (simp only [scnA]; split_ifs <;> decide))
    (fun p m => by simp [scnA])
    (fun p m => by simp [scnA])
    noIntr (fun _ => rfl) 2 true (st0 [])

/-- Claim C9: thanks to the out-of-range seeds `MIN_EVAL - 1` and
`MAX_EVAL + 1`, an uncancelled `minMaxAlphaBetaPruningWithHistory` call at
a non-terminal node always adopts an explored child: the returned score is
in `[MIN_EVAL, MAX_EVAL]` — in particular not a sentinel, even when the
first child scores exactly `MIN_EVAL` or `MAX_EVAL` — and the returned
history strictly extends the node's incoming path. -/
theorem withHistory_sentinel_seeds (g : GameAlgo Pos Move)
    (hEval : ∀ p, g.MIN_EVAL ≤ g.evalFunc p ∧ g.evalFunc p ≤ g.MAX_EVAL)
    (hInvMax : ∀ p m, g.maximizerUndoMoveFunc (g.maximizerMoveFunc p m) m = p)
    (hInvMin : ∀ p m, g.minimizerUndoMoveFunc (g.minimizerMoveFunc p m) m = p)
    (intr : Nat → Bool) (hIntr : ∀ k, intr k = false)
    (d : Nat) (maximizingPlayer : Bool) (alpha beta : Int) (hist : List Move)
    (s : SearchState Pos Move)
    (hβ : beta ≤ g.MAX_EVAL)
    (hL : moveListOf g maximizingPlayer s.pos ≠ []) :
    g.MIN_EVAL ≤
      (minMaxAlphaBetaPruningWithHistory g intr (d + 1) maximizingPlayer
        alpha beta hist s).1.eval ∧
    (minMaxAlphaBetaPruningWithHistory g intr (d + 1) maximizingPlayer
      alpha beta hist s).1.eval ≤ g.MAX_EVAL ∧
    (minMaxAlphaBetaPruningWithHistory g intr (d + 1) maximizingPlayer
      alpha beta hist s).1.eval ≠ g.MIN_EVAL - 1 ∧
    (minMaxAlphaBetaPruningWithHistory g intr (d + 1) maximizingPlayer
      alpha beta hist s).1.eval ≠ g.MAX_EVAL + 1 ∧
    hist.length <
      (minMaxAlphaBetaPruningWithHistory g intr (d + 1) maximizingPlayer
        alpha beta hist s).1.history.length := by
  rw [(withHistory_pure_bridge g intr hIntr hInvMax hInvMin (d + 1) maximizingPlayer
    alpha beta hist s).1]
  obtain ⟨hr, tl, htl, _, hne⟩ := (abhPure_spec g hEval (d + 1) maximizingPlayer
    alpha beta hist s.pos hβ)
  have htlne : tl ≠ [] := hne (by omega) hL
  have hlen : 0 < tl.length := List.length_pos.mpr htlne
  rw [htl]
  simp only [List.length_append]
  refine ⟨hr.1, hr.2, by omega, by omega, by omega⟩

/-- Witness for C9 on the Scenario A adapter at the root (depth 2). -/
theorem withHistory_sentinel_seeds_witness :
    scnA.MIN_EVAL ≤
      (minMaxAlphaBetaPruningWithHistory scnA noIntr 2 true
        scnA.MIN_EVAL scnA.MAX_EVAL [] (st0 [])).1.eval ∧
    (minMaxAlphaBetaPruningWithHistory scnA noIntr 2 true
      scnA.MIN_EVAL scnA.MAX_EVAL [] (st0 [])).1.eval ≤ scnA.MAX_EVAL ∧
    (minMaxAlphaBetaPruningWithHistory scnA noIntr 2 true
      scnA.MIN_EVAL scnA.MAX_EVAL [] (st0 [])).1.eval ≠ scnA.MIN_EVAL - 1 ∧
    (minMaxAlphaBetaPruningWithHistory scnA noIntr 2 true
      scnA.MIN_EVAL scnA.MAX_EVAL [] (st0 [])).1.eval ≠ scnA.MAX_EVAL + 1 ∧
    ([] : List Nat).length <
      (minMaxAlphaBetaPruningWithHistory scnA noIntr 2 true
        scnA.MIN_EVAL scnA.MAX_EVAL [] (st0 [])).1.history.length :=
  withHistory_sentinel_seeds scnA
    (fun p => by constructor <;> (simp only [scnA]; split_ifs <;> decide))
    (fun p m => by simp [scnA])
    (fun p m => by simp [scnA])
    noIntr (fun _ => rfl) 1 true scnA.MIN_EVAL scnA.MAX_EVAL [] (st0 [])
    (by decide) (by decide)

end MinMaxSpec
